import Mathlib

/-!
Shallow embedding of the schedule_manager calendar sync engine.

Sources embedded here:
  * src/app/calendar/parser.py  — checklist text codec
    (parse_items_from_description, format_items_to_description);
  * src/app/calendar/sync.py    — merge engine (_upsert_event, _sync_items,
    _sync_attendees, _cleanup_orphaned_instance, _cleanup_orphaned_events,
    _handle_deleted_event, the page loop of sync_calendar, the HTTP-410
    retry, push_items_to_calendar);
  * src/app/models/*.py         — Event, Item, Attendee, ChecklistConfirmation.

Strings are modelled as lists of characters; the two Python regexes are
embedded as deterministic scanners that mirror the backtracking behaviour of
the patterns used in the source (greedy quantifiers, leftmost alternatives,
single-pass non-overlapping substitution).  The character classes follow the
ASCII semantics of the patterns.  Datetimes are minutes on an integer
timeline; the day of an instant is obtained by flooring to a multiple of
1440, mirroring datetime.replace(hour=0, minute=0, second=0, microsecond=0).
-/

namespace Sched

/-- Whitespace class of the Python regex token matching whitespace (ASCII part). -/
def isWS (c : Char) : Bool :=
  c == ' ' || c == '\t' || c == '\n' || c == '\r' || c == '\x0b' || c == '\x0c'

/-- Case-insensitive literal match: consume the pattern from the front of the
input (compare lower-cased, as re.IGNORECASE does for ASCII) and return the
remaining input. -/
def matchCI : List Char → List Char → Option (List Char)
  | [], s => some s
  | _ :: _, [] => none
  | p :: ps, c :: cs => if p.toLower = c.toLower then matchCI ps cs else none

/-- The alternatives of the section-header pattern of parse_items_from_description,
colon included, in the order of the Python alternation. -/
def sectionHeaders : List (List Char) :=
  ["items:".data, "checklist:".data, "things to bring:".data,
   "required:".data, "bring:".data, "pack:".data]

/-- Match one of the recognized headers (with colon) at the head of the
input, trying the alternatives in the order of the Python alternation. -/
def headerAt (s : List Char) : Option (List Char) :=
  match matchCI "items:".data s with
  | some r => some r
  | none =>
    match matchCI "checklist:".data s with
    | some r => some r
    | none =>
      match matchCI "things to bring:".data s with
      | some r => some r
      | none =>
        match matchCI "required:".data s with
        | some r => some r
        | none =>
          match matchCI "bring:".data s with
          | some r => some r
          | none => matchCI "pack:".data s

/-- Greedy match of whitespace-star-then-newline at the head of the input:
consumes through the last newline of the leading whitespace run, exactly as
the regex fragment backtracks. -/
def wsNl : List Char → Option (List Char)
  | [] => none
  | c :: t =>
    if isWS c then
      match wsNl t with
      | some r => some r
      | none => if c = '\n' then some t else none
    else none

/-- Match of the section-header pattern (header, colon, whitespace, newline)
at the head of the input, returning the rest of the input. -/
def sectionMatchAt (s : List Char) : Option (List Char) :=
  match headerAt s with
  | some r => wsNl r
  | none => none

/-- Leftmost search for the section-header pattern: returns the text before
the match and the text after the match, as finditer would deliver them. -/
def findNext : List Char → Option (List Char × List Char)
  | [] => none
  | c :: t =>
    match sectionMatchAt (c :: t) with
    | some r => some ([], r)
    | none =>
      match findNext t with
      | some (p, r) => some (c :: p, r)
      | none => none

/-- ASCII lowercase letter, the character class of the generic header pattern. -/
def isLowerAscii (c : Char) : Bool := 'a' ≤ c && c ≤ 'z'

/-- ASCII uppercase letter, the character class of the generic header pattern. -/
def isUpperAscii (c : Char) : Bool := 'A' ≤ c && c ≤ 'Z'

/-- Match of the generic capitalized-word-colon header (newline, one uppercase
letter, one or more lowercase letters, colon) at the head of the input. -/
def genericHeaderAt : List Char → Bool
  | '\n' :: c :: t =>
    isUpperAscii c &&
      (let run := t.takeWhile isLowerAscii
       !run.isEmpty && (t.drop run.length).head? == some ':')
  | _ => false

/-- Text up to the first generic capitalized-word-colon header, or the whole
input if there is none (the end rule used for the last section). -/
def upToGeneric : List Char → List Char
  | [] => []
  | c :: t => if genericHeaderAt (c :: t) then [] else c :: upToGeneric t

theorem matchCI_length {p s r : List Char} (h : matchCI p s = some r) :
    r.length + p.length = s.length := by
  induction p generalizing s with
  | nil =>
    simp only [matchCI, Option.some.injEq] at h
    subst h; simp
  | cons a ps ih =>
    cases s with
    | nil => simp [matchCI] at h
    | cons c cs =>
      simp only [matchCI] at h
      split at h
      · have := ih h
        simp only [List.length_cons]
        omega
      · simp at h

theorem wsNl_length {s r : List Char} (h : wsNl s = some r) : r.length < s.length := by
  induction s generalizing r with
  | nil => simp [wsNl] at h
  | cons c t ih =>
    simp only [wsNl] at h
    split at h
    · split at h
      · rename_i u hw
        simp only [Option.some.injEq] at h
        subst h
        have := ih hw
        simp only [List.length_cons]; omega
      · split at h
        · simp only [Option.some.injEq] at h; subst h; simp
        · simp at h
    · simp at h

theorem headerAt_length {s r : List Char} (h : headerAt s = some r) :
    r.length < s.length := by
  have key : ∀ (p : List Char), p ≠ [] → matchCI p s = some r → r.length < s.length := by
    intro p hp hm
    have := matchCI_length hm
    cases p with
    | nil => exact absurd rfl hp
    | cons a b => simp only [List.length_cons] at this; omega
  unfold headerAt at h
  cases h1 : matchCI "items:".data s with
  | some u => rw [h1] at h; simp only [Option.some.injEq] at h; subst h; exact key _ (by decide) h1
  | none =>
  rw [h1] at h
  cases h2 : matchCI "checklist:".data s with
  | some u => rw [h2] at h; simp only [Option.some.injEq] at h; subst h; exact key _ (by decide) h2
  | none =>
  rw [h2] at h
  cases h3 : matchCI "things to bring:".data s with
  | some u => rw [h3] at h; simp only [Option.some.injEq] at h; subst h; exact key _ (by decide) h3
  | none =>
  rw [h3] at h
  cases h4 : matchCI "required:".data s with
  | some u => rw [h4] at h; simp only [Option.some.injEq] at h; subst h; exact key _ (by decide) h4
  | none =>
  rw [h4] at h
  cases h5 : matchCI "bring:".data s with
  | some u => rw [h5] at h; simp only [Option.some.injEq] at h; subst h; exact key _ (by decide) h5
  | none =>
  rw [h5] at h
  exact key _ (by decide) h

theorem sectionMatchAt_length {s r : List Char} (h : sectionMatchAt s = some r) :
    r.length < s.length := by
  unfold sectionMatchAt at h
  cases hh : headerAt s with
  | none => rw [hh] at h; simp at h
  | some u =>
    rw [hh] at h
    have h1 := headerAt_length hh
    have h2 := wsNl_length h
    omega

theorem findNext_length {s p r : List Char} (h : findNext s = some (p, r)) :
    r.length < s.length := by
  induction s generalizing p r with
  | nil => simp [findNext] at h
  | cons c t ih =>
    simp only [findNext] at h
    cases hm : sectionMatchAt (c :: t) with
    | some u =>
      rw [hm] at h
      simp only [Option.some.injEq, Prod.mk.injEq] at h
      obtain ⟨-, hu⟩ := h
      subst hu
      exact sectionMatchAt_length hm
    | none =>
      rw [hm] at h
      cases hf : findNext t with
      | some pr =>
        obtain ⟨p0, r0⟩ := pr
        rw [hf] at h
        simp only [Option.some.injEq, Prod.mk.injEq] at h
        obtain ⟨-, hr⟩ := h
        subst hr
        have := ih hf
        simp only [List.length_cons]; omega
      | none => rw [hf] at h; simp at h

/-- Sections after the first match: the text between consecutive matches, the
last section delimited by the generic header rule (fuel-indexed; fuel at least
the length of the input suffices). -/
def sectionsFromF : Nat → List Char → List (List Char)
  | 0, s => [upToGeneric s]
  | fuel + 1, s =>
    match findNext s with
    | none => [upToGeneric s]
    | some (p, r) => p :: sectionsFromF fuel r

/-- All item-section bodies of a description, in order, as
parse_items_from_description slices them. -/
def extractSections (s : List Char) : List (List Char) :=
  match findNext s with
  | none => []
  | some (_, r) => sectionsFromF r.length r

/-- Python str.strip with no arguments (ASCII whitespace model). -/
def pyStrip (s : List Char) : List Char :=
  ((s.dropWhile isWS).reverse.dropWhile isWS).reverse

/-- Split on newline characters, exactly like str.split with a newline. -/
def splitLines : List Char → List (List Char)
  | [] => [[]]
  | c :: t =>
    if c = '\n' then [] :: splitLines t
    else
      match splitLines t with
      | l :: ls => (c :: l) :: ls
      | [] => [[c]]

/-- Bullet glyphs of the first bullet grammar. -/
def isBullet (c : Char) : Bool := c == '-' || c == '*' || c == '•'

/-- First bullet grammar (dash, asterisk or bullet glyph, then whitespace,
then text) applied to an already-stripped line; returns the captured text. -/
def bulletGroupA : List Char → Option (List Char)
  | [] => none
  | c :: t =>
    if isBullet c then
      let w := t.takeWhile isWS
      let r := t.drop w.length
      if w.isEmpty || r.isEmpty then none else some r
    else none

/-- Second bullet grammar (checkbox) applied to an already-stripped line;
returns the captured text. -/
def bulletGroupB : List Char → Option (List Char)
  | '[' :: c :: t =>
    let afterBox : Option (List Char) :=
      if c == ' ' || c == 'x' || c == 'X' then
        match t with
        | ']' :: r => some r
        | _ => none
      else none
    let afterBox2 : Option (List Char) :=
      match afterBox with
      | some r => some r
      | none => if c == ']' then some t else none
    match afterBox2 with
    | some r =>
      let g := r.dropWhile isWS
      if g.isEmpty then none else some g
    | none => none
  | _ => none

/-- Third bullet grammar (number, dot or parenthesis, whitespace, text)
applied to an already-stripped line.  The capture returned is the digit
group: the source selects the first non-None regex group, which is the
number for this grammar. -/
def bulletGroupC (l : List Char) : Option (List Char) :=
  let ds := l.takeWhile (fun c => c.isDigit)
  if ds.isEmpty then none
  else
    match l.drop ds.length with
    | [] => none
    | c :: t =>
      if c == '.' || c == ')' then
        let w := t.takeWhile isWS
        let r := t.drop w.length
        if w.isEmpty || r.isEmpty then none else some ds
      else none

/-- Try the three bullet grammars on a stripped line, in the order of the
alternation in the source. -/
def parseBulletLine (l : List Char) : Option (List Char) :=
  match bulletGroupA l with
  | some g => some g
  | none =>
    match bulletGroupB l with
    | some g => some g
    | none => bulletGroupC l

/-- Items of one section body: strip each line, skip blank lines, apply the
bullet grammars, strip the captured text. -/
def sectionItems (sec : List Char) : List (List Char) :=
  (splitLines sec).filterMap (fun line =>
    let l := pyStrip line
    if l.isEmpty then none
    else
      match parseBulletLine l with
      | some g => if g.isEmpty then none else some (pyStrip g)
      | none => none)

/-- Embedding of parse_items_from_description on a character list. -/
def parseItemsCore (d : List Char) : List String :=
  ((extractSections d).flatMap sectionItems).map (fun l => String.mk l)

/-- Embedding of parse_items_from_description (src/app/calendar/parser.py). -/
def parse_items_from_description : Option String → List String
  | none => []
  | some s => if s.isEmpty then [] else parseItemsCore s.data

/-- Text after the body of one bullet repetition: consume the non-newline run
and one optional trailing newline. -/
def afterBody (s : List Char) : List Char :=
  let x := s.takeWhile (fun c => c ≠ '\n')
  let r := s.drop x.length
  if r.head? = some '\n' then r.tail else r

/-- Greedy match of whitespace-star, then at least one non-newline character,
then an optional newline — the tail of one bullet repetition of the
substitution pattern of format_items_to_description, with the backtracking
order of the regex (longer whitespace first). -/
def wsStarBody : List Char → Option (List Char)
  | [] => none
  | c :: t =>
    if isWS c then
      match wsStarBody t with
      | some r => some r
      | none => if c = '\n' then none else some (afterBody (c :: t))
    else some (afterBody (c :: t))

/-- One bullet repetition: bullet glyph, at least one whitespace character,
body, optional newline. -/
def repMatch : List Char → Option (List Char)
  | b :: c :: t => if isBullet b && isWS c then wsStarBody t else none
  | _ => none

theorem afterBody_length (s : List Char) : (afterBody s).length ≤ s.length := by
  have h1 : (s.drop (s.takeWhile (fun c => c ≠ '\n')).length).length ≤ s.length := by
    simp
  have h2 := List.length_tail (s.drop (s.takeWhile (fun c => c ≠ '\n')).length)
  simp only [afterBody]
  split
  · omega
  · exact h1

theorem wsStarBody_length {s r : List Char} (h : wsStarBody s = some r) :
    r.length ≤ s.length := by
  induction s generalizing r with
  | nil => simp [wsStarBody] at h
  | cons c t ih =>
    simp only [wsStarBody] at h
    split at h
    · split at h
      · rename_i u hw
        simp only [Option.some.injEq] at h
        subst h
        have := ih hw
        simp only [List.length_cons]; omega
      · split at h
        · simp at h
        · simp only [Option.some.injEq] at h; subst h; exact afterBody_length _
    · simp only [Option.some.injEq] at h; subst h; exact afterBody_length _

theorem repMatch_length {s r : List Char} (h : repMatch s = some r) :
    r.length < s.length := by
  cases s with
  | nil => simp [repMatch] at h
  | cons b t0 =>
    cases t0 with
    | nil => simp [repMatch] at h
    | cons c t =>
      simp only [repMatch] at h
      split at h
      · have := wsStarBody_length h
        simp only [List.length_cons]; omega
      · simp at h

/-- Greedy star over bullet repetitions (fuel-indexed; fuel at least the
length of the input suffices), returning the text after the star. -/
def bulletStarF : Nat → List Char → List Char
  | 0, s => s
  | fuel + 1, s =>
    match repMatch s with
    | some r => bulletStarF fuel r
    | none => s

/-- Match of the whole substitution pattern of format_items_to_description
(literal Items header, whitespace, newline, bullet-line star) at the head of
the input, returning the rest of the input. -/
def itemsMatchAt (s : List Char) : Option (List Char) :=
  match matchCI "items:".data s with
  | some r =>
    match wsNl r with
    | some r2 => some (bulletStarF r2.length r2)
    | none => none
  | none => none

theorem bulletStarF_length (fuel : Nat) (s : List Char) :
    (bulletStarF fuel s).length ≤ s.length := by
  induction fuel generalizing s with
  | zero => simp [bulletStarF]
  | succ n ih =>
    simp only [bulletStarF]
    split
    · rename_i r hr
      have h1 := repMatch_length hr
      have h2 := ih r
      omega
    · simp

theorem itemsMatchAt_length {s r : List Char} (h : itemsMatchAt s = some r) :
    r.length < s.length := by
  unfold itemsMatchAt at h
  split at h
  · rename_i u hm
    split at h
    · rename_i u2 hw
      simp only [Option.some.injEq] at h
      have h1 := matchCI_length hm
      have h2 := wsNl_length hw
      have h3 := bulletStarF_length u2.length u2
      have h4 : ("items:".data).length = 6 := by decide
      subst h
      omega
    · simp at h
  · simp at h

/-- Single-pass, left-to-right, non-overlapping removal of every match of the
Items-section pattern, as re.sub with an empty replacement performs it
(fuel-indexed; fuel at least the length of the input suffices). -/
def subItemsAllF : Nat → List Char → List Char
  | 0, s => s
  | fuel + 1, s =>
    match s with
    | [] => []
    | c :: t =>
      match itemsMatchAt (c :: t) with
      | some r => subItemsAllF fuel r
      | none => c :: subItemsAllF fuel t

/-- Removal of every Items section from a description. -/
def subItemsAll (s : List Char) : List Char := subItemsAllF s.length s

/-- One rendered bullet line. -/
def renderLine (n : String) : List Char := '-' :: ' ' :: n.data

/-- The freshly rendered Items block. -/
def itemsBlock (items : List String) : List Char :=
  "Items:\n".data ++ List.intercalate ['\n'] (items.map renderLine)

/-- Embedding of format_items_to_description (src/app/calendar/parser.py). -/
def format_items_to_description (items : List String) (existing : String) : String :=
  let cleaned := pyStrip (subItemsAll existing.data)
  if items.isEmpty then String.mk cleaned
  else if cleaned.isEmpty then String.mk (itemsBlock items)
  else String.mk (cleaned ++ '\n' :: '\n' :: itemsBlock items)

/-!
Data model (src/app/models).  Rows carry numeric surrogate identities in
place of UUIDs; a store-level counter supplies fresh identities the way the
database supplies fresh primary keys.  Datetimes are minutes on an integer
timeline (type DT below).
-/

/-- Instants, in minutes; 1440 minutes to a calendar day. -/
abbrev DT := Int

/-- Local midnight of the day of an instant, mirroring
datetime.replace(hour=0, minute=0, second=0, microsecond=0). -/
def dayStart (t : DT) : DT := t - t % 1440

/-- Row of the item table (src/app/models/item.py). -/
structure Item where
  id : Nat
  event_id : Nat
  name : String
  is_checked : Bool
  source : String
deriving DecidableEq

/-- Row of the attendee table (src/app/models/attendee.py). -/
structure Attendee where
  id : Nat
  event_id : Nat
  email : String
  display_name : Option String
  response_status : String
deriving DecidableEq

/-- Row of the checklist-confirmation table (src/app/models/confirmation.py);
only the ownership link matters to the sync engine. -/
structure Confirmation where
  id : Nat
  event_id : Nat
deriving DecidableEq

/-- Row of the event table (src/app/models/event.py). -/
structure Event where
  id : Nat
  google_event_id : String
  recurring_event_id : Option String
  title : String
  description : Option String
  start_time : DT
  end_time : DT
  last_synced : DT
  is_archived : Bool
deriving DecidableEq

/-- The relational store: one list per table plus a fresh-identity counter. -/
structure Store where
  events : List Event
  items : List Item
  attendees : List Attendee
  confirmations : List Confirmation
  nextId : Nat
deriving DecidableEq

/-- Attendee entry of a remote record. -/
structure GAttendee where
  email : String
  displayName : Option String
  responseStatus : Option String
deriving DecidableEq

/-- One remote record as delivered by the gateway's list call, with the
start and end values already put through datetime parsing (the field endt
models the record's end value; end is a reserved word here).  An absent
summary or description is an absent key of the Python dict. -/
structure GEvent where
  id : String
  status : Option String
  summary : Option String
  description : Option String
  start : DT
  endt : DT
  recurringEventId : Option String
  attendees : List GAttendee
deriving DecidableEq

/-- Items of one event, in table order (the ORM relationship). -/
def Store.itemsOf (s : Store) (evId : Nat) : List Item :=
  s.items.filter (fun it => it.event_id == evId)

/-- Manual cascading delete of an event with its items, attendees and
confirmation records, as each deletion site of sync.py performs it. -/
def deleteEventCascade (s : Store) (evId : Nat) : Store :=
  { events := s.events.filter (fun e => e.id != evId),
    items := s.items.filter (fun it => it.event_id != evId),
    attendees := s.attendees.filter (fun a => a.event_id != evId),
    confirmations := s.confirmations.filter (fun cf => cf.event_id != evId),
    nextId := s.nextId }

/-- The orphan filter of _cleanup_orphaned_instance: same series, different
remote id, start on the given calendar day, not archived. -/
def orphanPred (rid ngid : String) (ds de : DT) (e : Event) : Bool :=
  e.recurring_event_id == some rid && e.google_event_id != ngid &&
    decide (ds ≤ e.start_time) && decide (e.start_time < de) && !e.is_archived

/-- Embedding of _cleanup_orphaned_instance (src/app/calendar/sync.py). -/
def cleanupOrphanedInstance (s : Store) (rid : String) (newStart : DT)
    (newGid : String) : Store × Bool :=
  let ds := dayStart newStart
  let de := ds + 1440
  let orphans := s.events.filter (orphanPred rid newGid ds de)
  (orphans.foldl (fun st e => deleteEventCascade st e.id) s, !orphans.isEmpty)

/-- First-occurrence deduplication, the iteration order used for the parsed
name set and for the name-keyed dictionary of current items. -/
def dedupF : List String → List String
  | [] => []
  | x :: t => x :: (dedupF t).filter (fun y => y != x)

/-- The value the name-keyed dictionary of _sync_items holds for a name: the
last stored item bearing it. -/
def lastWithName (l : List Item) (n : String) : Option Item :=
  (l.filter (fun it => it.name == n)).getLast?

/-- Embedding of _sync_items (src/app/calendar/sync.py): skip archived
events; insert a parsed item for every extracted name not already present;
delete the dictionary entry of every stored name absent from the extracted
set, regardless of provenance. -/
def syncItems (s : Store) (ev : Event) (descr : Option String) : Store :=
  if ev.is_archived then s
  else
    let parsed := parse_items_from_description descr
    let evItems := s.itemsOf ev.id
    let names := evItems.map (fun it => it.name)
    let toAdd := (dedupF parsed).filter (fun n => !(names.contains n))
    let newItems := toAdd.enum.map (fun p =>
      { id := s.nextId + p.1, event_id := ev.id, name := p.2,
        is_checked := false, source := "parsed" : Item })
    let delIds := (dedupF names).filterMap (fun n =>
      if parsed.contains n then none
      else (lastWithName evItems n).map (fun it => it.id))
    { s with
      items := (s.items.filter (fun it => !(delIds.contains it.id))) ++ newItems,
      nextId := s.nextId + newItems.length }

/-- Embedding of _sync_attendees (src/app/calendar/sync.py): delete every
attendee row of the event, then insert one row per remote attendee. -/
def syncAttendees (s : Store) (ev : Event) (atts : List GAttendee) : Store :=
  let kept := s.attendees.filter (fun a => a.event_id != ev.id)
  let newAtts := atts.enum.map (fun p =>
    { id := s.nextId + p.1, event_id := ev.id, email := p.2.email,
      display_name := p.2.displayName,
      response_status := p.2.responseStatus.getD "needsAction" : Attendee })
  { s with attendees := kept ++ newAtts, nextId := s.nextId + newAtts.length }

/-- Reset of every checklist item of an event to unchecked, the loop guarded
by the time-change test in _upsert_event. -/
def resetItems (s : Store) (evId : Nat) : Store :=
  { s with items := s.items.map (fun it =>
      if it.event_id == evId then { it with is_checked := false } else it) }

/-- The field overwrite of the update path of _upsert_event: every
remote-authoritative field is replaced, the local-only fields stay. -/
def updatedEvent (g : GEvent) (now : DT) (existing : Event) : Event :=
  { existing with
    title := g.summary.getD "Untitled", description := g.description,
    start_time := g.start, end_time := g.endt,
    recurring_event_id := g.recurringEventId, last_synced := now }

/-- In-place replacement of the existing event row by its updated value. -/
def replaceEventStep (s : Store) (existing updated : Event) : Store :=
  { s with events := s.events.map (fun e => if e.id == existing.id then updated else e) }

/-- The conditional checklist reset of _upsert_event: fires when a time
component changed and the event is not archived. -/
def resetStep (s : Store) (g : GEvent) (existing : Event) : Store :=
  if (existing.start_time != g.start || existing.end_time != g.endt)
      && !existing.is_archived then
    resetItems s existing.id
  else s

/-- The conditional same-day orphan cleanup of _upsert_event: runs exactly
when the record carries a recurring series id. -/
def instanceCleanupStep (s : Store) (g : GEvent) : Store :=
  match g.recurringEventId with
  | some rid => (cleanupOrphanedInstance s rid g.start g.id).1
  | none => s

/-- The update path of _upsert_event: overwrite fields, conditionally reset
the checklist, clean same-day orphans, then reconcile items and attendees. -/
def upsertExisting (s : Store) (g : GEvent) (now : DT) (existing : Event) : Store :=
  syncAttendees
    (syncItems
      (instanceCleanupStep
        (resetStep (replaceEventStep s existing (updatedEvent g now existing)) g existing)
        g)
      (updatedEvent g now existing) g.description)
    (updatedEvent g now existing) g.attendees

/-- The freshly created event row of the creation path (the flush supplies
its identity from the store counter). -/
def newEvent (s1 : Store) (g : GEvent) (now : DT) : Event :=
  { id := s1.nextId, google_event_id := g.id, recurring_event_id := g.recurringEventId,
    title := g.summary.getD "Untitled", description := g.description,
    start_time := g.start, end_time := g.endt, last_synced := now, is_archived := false }

/-- Insertion of a new event row. -/
def insertEventStep (s : Store) (ev : Event) : Store :=
  { s with events := s.events ++ [ev], nextId := s.nextId + 1 }

/-- The creation path of _upsert_event: clean same-day orphans, insert, then
reconcile items and attendees. -/
def upsertNew (s : Store) (g : GEvent) (now : DT) : Store :=
  syncAttendees
    (syncItems
      (insertEventStep (instanceCleanupStep s g) (newEvent (instanceCleanupStep s g) g now))
      (newEvent (instanceCleanupStep s g) g now) g.description)
    (newEvent (instanceCleanupStep s g) g now) g.attendees

/-- Embedding of _upsert_event (src/app/calendar/sync.py).  Returns the new
store and whether a new event was created. -/
def upsertEvent (s : Store) (g : GEvent) (now : DT) : Store × Bool :=
  match s.events.find? (fun e => e.google_event_id == g.id) with
  | some existing => (upsertExisting s g now existing, false)
  | none => (upsertNew s g now, true)

/-- Embedding of _handle_deleted_event (src/app/calendar/sync.py): delete a
non-archived event by remote id, cascading; archived or absent events are
left alone. -/
def handleDeletedEvent (s : Store) (gid : String) : Store × Bool :=
  match s.events.find? (fun e => e.google_event_id == gid) with
  | some ev => if !ev.is_archived then (deleteEventCascade s ev.id, true) else (s, false)
  | none => (s, false)

/-- Sync statistics, the counters of sync_calendar. -/
structure Stats where
  created : Nat
  updated : Nat
  deleted : Nat
deriving DecidableEq

/-- Per-record step of the page loop of sync_calendar: cancelled records go
through deletion handling, the rest through Upsert; during a full sync the
remote id of every non-cancelled record is recorded as seen. -/
def processRecord (now : DT) (isFull : Bool) (acc : Store × Stats × List String)
    (g : GEvent) : Store × Stats × List String :=
  let s := acc.1
  let st := acc.2.1
  let seen := acc.2.2
  if g.status == some "cancelled" then
    let r := handleDeletedEvent s g.id
    (r.1, (if r.2 then { st with deleted := st.deleted + 1 } else st), seen)
  else
    let seen2 := if isFull then seen ++ [g.id] else seen
    let r := upsertEvent s g now
    (r.1,
     (if r.2 then { st with created := st.created + 1 }
      else { st with updated := st.updated + 1 }),
     seen2)

/-- The page loop of sync_calendar over the concatenated pages. -/
def processRecords (s : Store) (gs : List GEvent) (now : DT) (isFull : Bool) :
    Store × Stats × List String :=
  gs.foldl (processRecord now isFull) (s, ⟨0, 0, 0⟩, [])

/-- Embedding of _cleanup_orphaned_events (src/app/calendar/sync.py): delete
every non-archived event overlapping the sync window whose remote id was not
seen, cascading; returns the new store and the deletion count. -/
def cleanupOrphanedEvents (s : Store) (seen : List String) (now : DT) : Store × Nat :=
  let localEvents := s.events.filter (fun e =>
    !e.is_archived && decide (now - 120 ≤ e.end_time) && decide (e.start_time < now + 43200))
  let doomed := localEvents.filter (fun e => !(seen.contains e.google_event_id))
  (doomed.foldl (fun st e => deleteEventCascade st e.id) s, doomed.length)

/-- A full sync cycle over already-fetched pages: the page loop of
sync_calendar with seen-id tracking, then the orphan sweep. -/
def runFullSync (s : Store) (pages : List (List GEvent)) (now : DT) : Store × Stats :=
  let r1 := processRecords s pages.flatten now true
  let r2 := cleanupOrphanedEvents r1.1 r1.2.2 now
  (r2.1, { r1.2.1 with deleted := r1.2.1.deleted + r2.2 })

/-- Gateway response to one invocation of the events list call: pages with an
optional fresh sync token, the distinguished token-invalid signal (HTTP 410),
or any other transport error. -/
inductive GwResp where
  | pages (ps : List (List GEvent)) (newTok : Option String)
  | tokenInvalid
  | httpErr (code : Nat)
deriving DecidableEq

/-- Outcome of the sync entry point: completed statistics, a re-raised error,
or exhaustion of the recursion bound of the model. -/
inductive SyncOutcome where
  | ok (st : Stats)
  | raised (code : Nat)
  | noFuel
deriving DecidableEq

/-- Embedding of the control flow of sync_calendar (src/app/calendar/sync.py,
lines 76-204) around a gateway that answers the list call as a function of
the supplied sync token.  On the token-invalid signal the stored token is
cleared and the function re-invokes itself, exactly as the except branch for
HTTP 410 does; the second component counts how often that fallback edge was
taken.  The fuel argument bounds the model's recursion only: the source has
no such bound. -/
def syncCalendarModel (gw : Option String → GwResp) (now : DT) :
    Nat → Store → Option String → SyncOutcome × Nat
  | 0, _, _ => (.noFuel, 0)
  | fuel + 1, s, tok =>
    match gw tok with
    | .pages ps _ =>
      if tok.isNone then (.ok (runFullSync s ps now).2, 0)
      else (.ok (processRecords s ps.flatten now false).2.1, 0)
    | .tokenInvalid =>
      let r := syncCalendarModel gw now fuel s none
      (r.1, r.2 + 1)
    | .httpErr c => (.raised c, 0)

/-- Remote gateway operations used by push_items_to_calendar: fetch one
record, write one record back; failures are the HttpError signals of the
reference binding. -/
structure PushGateway where
  getEvent : String → Except Nat GEvent
  updateEvent : String → GEvent → Except Nat Unit

/-- The description push_items_to_calendar writes back: the event's current
item names rendered against the freshly fetched remote description. -/
def pushBody (s : Store) (ev : Event) (g : GEvent) : String :=
  format_items_to_description ((s.itemsOf ev.id).map (fun it => it.name))
    (g.description.getD "")

/-- Embedding of push_items_to_calendar (src/app/calendar/sync.py): fetch the
current remote record, re-render its description from the event's current
item names, write it back; on either failure return the failure sentinel.
The local store is carried through to expose that the function never writes
to it. -/
def push_items_to_calendar (gw : PushGateway) (s : Store) (ev : Event) :
    Store × Option String :=
  match gw.getEvent ev.google_event_id with
  | .error _ => (s, none)
  | .ok g =>
    match gw.updateEvent ev.google_event_id { g with description := some (pushBody s ev g) } with
    | .error _ => (s, none)
    | .ok _ => (s, some (pushBody s ev g))

/-!
Helper lemmas about the store operations.
-/

theorem filter_and_of_imp {α} {p q : α → Bool} (h : ∀ x, q x = true → p x = true)
    (l : List α) : l.filter (fun x => q x && p x) = l.filter q := by
  apply List.filter_congr
  intro x _
  cases hq : q x with
  | true => simp [h x hq]
  | false => simp

theorem itemsOf_deleteEventCascade {s : Store} {a b : Nat} (h : a ≠ b) :
    (deleteEventCascade s a).itemsOf b = s.itemsOf b := by
  unfold deleteEventCascade Store.itemsOf
  simp only []
  rw [List.filter_filter]
  exact filter_and_of_imp (fun x hx => by
    simp only [beq_iff_eq] at hx
    simp [bne_iff_ne, hx, Ne.symm h]) _

theorem foldCascade_items (s : Store) (l : List Event) :
    (l.foldl (fun st e => deleteEventCascade st e.id) s).items
      = s.items.filter (fun it => l.all (fun o => it.event_id != o.id)) := by
  induction l generalizing s with
  | nil => simp
  | cons o t ih =>
    rw [List.foldl_cons, ih]
    simp only [deleteEventCascade]
    rw [List.filter_filter]
    apply List.filter_congr
    intro x _
    simp [List.all_cons, Bool.and_comm]

theorem foldCascade_events (s : Store) (l : List Event) :
    (l.foldl (fun st e => deleteEventCascade st e.id) s).events
      = s.events.filter (fun e => l.all (fun o => e.id != o.id)) := by
  induction l generalizing s with
  | nil => simp
  | cons o t ih =>
    rw [List.foldl_cons, ih]
    simp only [deleteEventCascade]
    rw [List.filter_filter]
    apply List.filter_congr
    intro x _
    simp [List.all_cons, Bool.and_comm]

theorem foldCascade_attendees (s : Store) (l : List Event) :
    (l.foldl (fun st e => deleteEventCascade st e.id) s).attendees
      = s.attendees.filter (fun a => l.all (fun o => a.event_id != o.id)) := by
  induction l generalizing s with
  | nil => simp
  | cons o t ih =>
    rw [List.foldl_cons, ih]
    simp only [deleteEventCascade]
    rw [List.filter_filter]
    apply List.filter_congr
    intro x _
    simp [List.all_cons, Bool.and_comm]

theorem foldCascade_confirmations (s : Store) (l : List Event) :
    (l.foldl (fun st e => deleteEventCascade st e.id) s).confirmations
      = s.confirmations.filter (fun cf => l.all (fun o => cf.event_id != o.id)) := by
  induction l generalizing s with
  | nil => simp
  | cons o t ih =>
    rw [List.foldl_cons, ih]
    simp only [deleteEventCascade]
    rw [List.filter_filter]
    apply List.filter_congr
    intro x _
    simp [List.all_cons, Bool.and_comm]

theorem foldCascade_nextId (s : Store) (l : List Event) :
    (l.foldl (fun st e => deleteEventCascade st e.id) s).nextId = s.nextId := by
  induction l generalizing s with
  | nil => rfl
  | cons o t ih =>
    rw [List.foldl_cons, ih]
    rfl

theorem foldCascade_itemsOf (s : Store) (l : List Event) {b : Nat}
    (h : ∀ o ∈ l, o.id ≠ b) :
    (l.foldl (fun st e => deleteEventCascade st e.id) s).itemsOf b = s.itemsOf b := by
  unfold Store.itemsOf
  rw [foldCascade_items, List.filter_filter]
  apply filter_and_of_imp
  intro x hx
  simp only [beq_iff_eq] at hx
  simp only [List.all_eq_true, bne_iff_ne]
  intro o ho
  rw [hx]
  exact Ne.symm (h o ho)

theorem syncAttendees_items (s : Store) (ev : Event) (atts : List GAttendee) :
    (syncAttendees s ev atts).items = s.items := rfl

theorem syncAttendees_events (s : Store) (ev : Event) (atts : List GAttendee) :
    (syncAttendees s ev atts).events = s.events := rfl

theorem syncItems_archived (s : Store) (ev : Event) (d : Option String)
    (h : ev.is_archived = true) : syncItems s ev d = s := by
  unfold syncItems
  rw [h]
  rfl

theorem syncItems_events (s : Store) (ev : Event) (d : Option String) :
    (syncItems s ev d).events = s.events := by
  unfold syncItems
  split <;> rfl

theorem resetItems_events (s : Store) (i : Nat) :
    (resetItems s i).events = s.events := rfl

theorem syncAttendees_itemsOf (s : Store) (ev : Event) (atts : List GAttendee) (b : Nat) :
    (syncAttendees s ev atts).itemsOf b = s.itemsOf b := rfl

theorem replaceEventStep_events (s : Store) (a b : Event) :
    (replaceEventStep s a b).events = s.events.map (fun e => if e.id == a.id then b else e) := rfl

theorem replaceEventStep_itemsOf (s : Store) (a b : Event) (n : Nat) :
    (replaceEventStep s a b).itemsOf n = s.itemsOf n := rfl

theorem resetStep_events (s : Store) (g : GEvent) (e : Event) :
    (resetStep s g e).events = s.events := by
  unfold resetStep
  split <;> rfl

theorem instanceCleanupStep_itemsOf (s : Store) (g : GEvent) {b : Nat}
    (h : ∀ o ∈ s.events, o.google_event_id ≠ g.id → o.id ≠ b) :
    (instanceCleanupStep s g).itemsOf b = s.itemsOf b := by
  unfold instanceCleanupStep
  cases hr : g.recurringEventId with
  | none => rfl
  | some rid =>
    unfold cleanupOrphanedInstance
    simp only []
    apply foldCascade_itemsOf
    intro o ho
    rw [List.mem_filter] at ho
    have hpred := ho.2
    unfold orphanPred at hpred
    simp only [Bool.and_eq_true, bne_iff_ne] at hpred
    exact h o ho.1 hpred.1.1.1.2

/-- C9 witness gateway is built from these; kept generic so any claim can use it. -/
def constGateway (ge : Except Nat GEvent) (ue : Except Nat Unit) : PushGateway :=
  { getEvent := fun _ => ge, updateEvent := fun _ _ => ue }

/-- C9: whenever the remote gateway fails during push_items_to_calendar —
either on the fetch of the current remote record or on the write-back — the
function returns the failure sentinel none rather than raising, and the
local store (the event's cached description and its items) is returned
unmodified. -/
theorem push_failure_none_and_frame (gw : PushGateway) (s : Store) (ev : Event)
    (hfail : (∃ e, gw.getEvent ev.google_event_id = Except.error e) ∨
      (∃ g e, gw.getEvent ev.google_event_id = Except.ok g ∧
        gw.updateEvent ev.google_event_id
          { g with description := some (pushBody s ev g) } = Except.error e)) :
    push_items_to_calendar gw s ev = (s, none) := by
  unfold push_items_to_calendar
  rcases hfail with ⟨e, he⟩ | ⟨g, e, hg, hu⟩
  · rw [he]
  · rw [hg]
    simp only []
    rw [hu]

/-- C9 witness data: a remote record, a one-item store, and its event. -/
def c9Record : GEvent :=
  { id := "g", status := none, summary := none, description := some "notes",
    start := 0, endt := 60, recurringEventId := none, attendees := [] }

def c9Store : Store :=
  { events := [],
    items := [{ id := 0, event_id := 3, name := "Laptop", is_checked := true,
                source := "manual" }],
    attendees := [], confirmations := [], nextId := 1 }

def c9Event : Event :=
  { id := 3, google_event_id := "g", recurring_event_id := none, title := "T",
    description := some "notes", start_time := 0, end_time := 60,
    last_synced := 0, is_archived := false }

/-- C9 witness: a gateway whose write-back is rejected leaves a concrete
one-item store untouched and yields the sentinel. -/
theorem push_failure_none_and_frame_witness :
    push_items_to_calendar (constGateway (Except.ok c9Record) (Except.error 403))
      c9Store c9Event = (c9Store, none) := by
  apply push_failure_none_and_frame
  right
  exact ⟨c9Record, 403, rfl, rfl⟩

/-- C10: a cancelled remote record whose id names an archived local event is
a no-op for the page loop: the store is returned unchanged — the archived
event and all its items, attendees and confirmation rows survive — the
deleted counter is not incremented, and _handle_deleted_event reports no
deletion. -/
theorem cancelled_archived_event_untouched (s : Store) (g : GEvent) (ev : Event)
    (now : DT) (isFull : Bool) (st : Stats) (seen : List String)
    (hst : g.status = some "cancelled")
    (hfind : s.events.find? (fun e => e.google_event_id == g.id) = some ev)
    (harch : ev.is_archived = true) :
    processRecord now isFull (s, st, seen) g = (s, st, seen) ∧
      handleDeletedEvent s g.id = (s, false) := by
  have hdel : handleDeletedEvent s g.id = (s, false) := by
    unfold handleDeletedEvent
    simp [hfind, harch]
  refine ⟨?_, hdel⟩
  unfold processRecord
  rw [hst]
  simp [hdel]

/-- C10 witness data: an archived event owning an item, an attendee and a
confirmation row, and the cancelled remote record naming it. -/
def c10Store : Store :=
  { events := [{ id := 0, google_event_id := "g", recurring_event_id := none,
                 title := "T", description := none, start_time := 0,
                 end_time := 60, last_synced := 0, is_archived := true }],
    items := [{ id := 1, event_id := 0, name := "A", is_checked := true,
                source := "manual" }],
    attendees := [{ id := 2, event_id := 0, email := "x", display_name := none,
                    response_status := "accepted" }],
    confirmations := [{ id := 3, event_id := 0 }], nextId := 4 }

def c10Record : GEvent :=
  { id := "g", status := some "cancelled", summary := none, description := none,
    start := 0, endt := 60, recurringEventId := none, attendees := [] }

/-- C10 witness: a concrete archived event with one item, one attendee and
one confirmation row survives its cancelled record unchanged. -/
theorem cancelled_archived_event_untouched_witness :
    processRecord 500 true (c10Store, { created := 0, updated := 0, deleted := 0 }, [])
      c10Record = (c10Store, { created := 0, updated := 0, deleted := 0 }, []) := by
  exact (cancelled_archived_event_untouched c10Store c10Record
    { id := 0, google_event_id := "g", recurring_event_id := none, title := "T",
      description := none, start_time := 0, end_time := 60, last_synced := 0,
      is_archived := true }
    500 true { created := 0, updated := 0, deleted := 0 } [] rfl (by decide) rfl).1

/-- C1 counterexample data: an archived event whose remote record carries a
new title and description. -/
def c1Event : Event :=
  { id := 0, google_event_id := "g", recurring_event_id := none, title := "Old",
    description := some "old notes", start_time := 0, end_time := 60,
    last_synced := 0, is_archived := true }

def c1Store : Store :=
  { events := [c1Event], items := [], attendees := [], confirmations := [],
    nextId := 1 }

def c1Record : GEvent :=
  { id := "g", status := none, summary := some "New",
    description := some "new notes", start := 0, endt := 60,
    recurringEventId := none, attendees := [] }

/-- C1 counterexample: processing a remote record for an archived local event
does not leave the event unmodified — the Upsert update path overwrites its
title (here Old becomes New) and its description, so the claim that title,
description, times, series id, items, checked states and attendees are all
unchanged is false at this input. -/
theorem archived_upsert_overwrites_title :
    ((upsertEvent c1Store c1Record 0).1.events.map Event.title = ["New"]) ∧
    ((upsertEvent c1Store c1Record 0).1.events.map Event.description
      = [some "new notes"]) ∧
    c1Event.title = "Old" ∧ c1Event.description = some "old notes" ∧
    ("Old" : String) ≠ "New" := by
  refine ⟨by decide, by decide, rfl, rfl, by decide⟩

/-- C1 amended: for every archived local event, processing a remote record
for it during a sync cycle leaves the event's checklist items entirely
unmodified — identity, names, checked states and provenance — because the
checklist reset, the item reconciliation and the orphan cleanup all skip the
archived event; the remote-authoritative fields and the attendees are still
overwritten by the Upsert update path. -/
theorem archived_upsert_preserves_items (s : Store) (g : GEvent) (now : DT)
    (ev : Event)
    (hfind : s.events.find? (fun e => e.google_event_id == g.id) = some ev)
    (harch : ev.is_archived = true) :
    (upsertEvent s g now).1.itemsOf ev.id = s.itemsOf ev.id := by
  have hgid : ev.google_event_id = g.id := by
    have := List.find?_some hfind
    simpa using this
  have hup : upsertEvent s g now = (upsertExisting s g now ev, false) := by
    unfold upsertEvent
    rw [hfind]
  rw [hup]
  unfold upsertExisting
  rw [syncAttendees_itemsOf]
  have hupd : (updatedEvent g now ev).is_archived = true := harch
  rw [syncItems_archived _ _ _ hupd]
  rw [instanceCleanupStep_itemsOf]
  · have hres : resetStep (replaceEventStep s ev (updatedEvent g now ev)) g ev
        = replaceEventStep s ev (updatedEvent g now ev) := by
      unfold resetStep
      rw [harch]
      simp
    rw [hres, replaceEventStep_itemsOf]
  · intro o ho hog
    rw [resetStep_events, replaceEventStep_events, List.mem_map] at ho
    obtain ⟨e, he, hfe⟩ := ho
    by_cases hid : (e.id == ev.id) = true
    · rw [if_pos hid] at hfe
      apply absurd hog
      rw [← hfe]
      simp only [updatedEvent, hgid, ne_eq, not_not]
    · rw [if_neg hid] at hfe
      rw [← hfe]
      simpa using hid

/-- C1 witness data: a concrete archived event with a checked and an
unchecked item, receiving a record with a different description and times. -/
def c1wEvent : Event :=
  { id := 0, google_event_id := "g", recurring_event_id := none, title := "Old",
    description := some "Items:\n- A\n- B", start_time := 0, end_time := 60,
    last_synced := 0, is_archived := true }

def c1wStore : Store :=
  { events := [c1wEvent],
    items := [{ id := 1, event_id := 0, name := "A", is_checked := true,
                source := "parsed" },
              { id := 2, event_id := 0, name := "B", is_checked := false,
                source := "manual" }],
    attendees := [], confirmations := [], nextId := 3 }

def c1wRecord : GEvent :=
  { id := "g", status := none, summary := some "New",
    description := some "Items:\n- C", start := 100, endt := 200,
    recurringEventId := none, attendees := [] }

/-- C1 witness: the archived event's two items survive an Upsert whose record
changes title, description and both times. -/
theorem archived_upsert_preserves_items_witness :
    (upsertEvent c1wStore c1wRecord 5).1.itemsOf 0 = c1wStore.itemsOf 0 := by
  exact archived_upsert_preserves_items c1wStore c1wRecord 5 c1wEvent (by decide) rfl

/-!
Facts about first-occurrence deduplication, used by the item reconciliation
claims.
-/

theorem mem_dedupF {l : List String} {x : String} : x ∈ dedupF l ↔ x ∈ l := by
  induction l with
  | nil => simp [dedupF]
  | cons a t ih =>
    simp only [dedupF, List.mem_cons, List.mem_filter, bne_iff_ne]
    constructor
    · rintro (rfl | ⟨hx, -⟩)
      · exact Or.inl rfl
      · exact Or.inr (ih.mp hx)
    · rintro (rfl | hx)
      · exact Or.inl rfl
      · by_cases hxa : x = a
        · exact Or.inl hxa
        · exact Or.inr ⟨ih.mpr hx, hxa⟩

theorem nodup_dedupF (l : List String) : (dedupF l).Nodup := by
  induction l with
  | nil => simp [dedupF]
  | cons a t ih =>
    simp only [dedupF, List.nodup_cons]
    refine ⟨?_, ih.filter _⟩
    intro hmem
    rw [List.mem_filter] at hmem
    simpa using hmem.2

theorem eq_singleton_of_mem_iff {l : List String} {c : String} (hnd : l.Nodup)
    (h : ∀ x, x ∈ l ↔ x = c) : l = [c] := by
  cases l with
  | nil => exact absurd ((h c).mpr rfl) (by simp)
  | cons a t =>
    have ha : a = c := (h a).mp (by simp)
    subst ha
    cases t with
    | nil => rfl
    | cons b u =>
      have hb : b = a := (h b).mp (by simp)
      subst hb
      simp at hnd

theorem filter_swap {α} (p q : α → Bool) (l : List α) :
    (l.filter p).filter q = (l.filter q).filter p := by
  rw [List.filter_filter, List.filter_filter]
  apply List.filter_congr
  intro x _
  exact Bool.and_comm _ _

/-- C2: for a non-archived event whose stored items are A (checked) and
B (unchecked), reconciling against a description whose extracted name set is
exactly B and C leaves exactly the untouched row B followed by a freshly
inserted unchecked parsed row C; A is deleted whatever its provenance (its
source field is unconstrained here). -/
theorem sync_items_set_difference (s : Store) (ev : Event) (d : Option String)
    (a b c : String) (itA itB : Item)
    (harch : ev.is_archived = false)
    (hItems : s.itemsOf ev.id = [itA, itB])
    (hAname : itA.name = a) (hAchk : itA.is_checked = true)
    (hBname : itB.name = b) (hBchk : itB.is_checked = false)
    (hParsed : ∀ n, n ∈ parse_items_from_description d ↔ (n = b ∨ n = c))
    (hab : a ≠ b) (hac : a ≠ c) (hbc : b ≠ c)
    (hIds : itA.id ≠ itB.id) :
    (syncItems s ev d).itemsOf ev.id
      = [itB, { id := s.nextId, event_id := ev.id, name := c,
                is_checked := false, source := "parsed" }] := by
  have hba : b ≠ a := Ne.symm hab
  have hnotA : a ∉ parse_items_from_description d := by
    rw [hParsed]
    rintro (rfl | rfl)
    · exact hab rfl
    · exact hac rfl
  have hinB : b ∈ parse_items_from_description d := (hParsed b).mpr (Or.inl rfl)
  have hinC : c ∈ parse_items_from_description d := (hParsed c).mpr (Or.inr rfl)
  unfold syncItems
  rw [if_neg (by rw [harch]; simp)]
  rw [hItems]
  simp only [List.map_cons, List.map_nil, hAname, hBname]
  have htoAdd : (dedupF (parse_items_from_description d)).filter
      (fun n => !([a, b].contains n)) = [c] := by
    apply eq_singleton_of_mem_iff ((nodup_dedupF _).filter _)
    intro x
    rw [List.mem_filter, mem_dedupF, hParsed x]
    constructor
    · rintro ⟨rfl | rfl, hx⟩
      · simp at hx
      · rfl
    · rintro rfl
      exact ⟨Or.inr rfl, by simp [Ne.symm hac, Ne.symm hbc]⟩
  rw [htoAdd]
  have hdedupN : dedupF [a, b] = [a, b] := by
    simp [dedupF, hba]
  rw [hdedupN]
  have hdel : ([a, b].filterMap (fun n =>
      if (parse_items_from_description d).contains n then none
      else (lastWithName [itA, itB] n).map (fun it => it.id))) = [itA.id] := by
    have hca : ((parse_items_from_description d).contains a) = false := by
      simp [hnotA]
    have hcb : ((parse_items_from_description d).contains b) = true := by
      simp [hinB]
    have hlastA : lastWithName [itA, itB] a = some itA := by
      have h1 : (itA.name == a) = true := by simp [hAname]
      have h2 : (itB.name == a) = false := by simp [hBname, hba]
      simp [lastWithName, List.filter_cons, h1, h2]
    simp [List.filterMap_cons, hca, hcb, hlastA, hnotA, hinB]
  rw [hdel]
  unfold Store.itemsOf
  simp only [List.filter_append]
  have hItems2 : s.items.filter (fun it => it.event_id == ev.id) = [itA, itB] := hItems
  rw [filter_swap, hItems2]
  have hkeep : ([itA, itB].filter (fun it => !([itA.id].contains it.id))) = [itB] := by
    have h1 : (([itA.id].contains itA.id)) = true := by simp
    have h2 : (([itA.id].contains itB.id)) = false := by simp [Ne.symm hIds]
    simp [List.filter_cons, h1, h2, Ne.symm hIds]
  rw [hkeep]
  simp [List.enum]

/-- C2 witness data: a manual checked A and a parsed unchecked B, with a
description listing B and C. -/
def c2Event : Event :=
  { id := 0, google_event_id := "g", recurring_event_id := none, title := "T",
    description := none, start_time := 0, end_time := 60, last_synced := 0,
    is_archived := false }

def c2ItemA : Item :=
  { id := 1, event_id := 0, name := "A", is_checked := true, source := "manual" }

def c2ItemB : Item :=
  { id := 2, event_id := 0, name := "B", is_checked := false, source := "parsed" }

def c2Store : Store :=
  { events := [c2Event], items := [c2ItemA, c2ItemB], attendees := [],
    confirmations := [], nextId := 3 }

/-- C2 witness: on the concrete store, reconciliation against a description
listing B and C deletes the manual checked A, keeps B untouched and inserts
an unchecked parsed C. -/
theorem sync_items_set_difference_witness :
    (syncItems c2Store c2Event (some "Items:\n- B\n- C")).itemsOf 0
      = [c2ItemB, { id := 3, event_id := 0, name := "C", is_checked := false,
                    source := "parsed" }] := by
  have hp : parse_items_from_description (some "Items:\n- B\n- C") = ["B", "C"] := by
    decide
  exact sync_items_set_difference c2Store c2Event (some "Items:\n- B\n- C")
    "A" "B" "C" c2ItemA c2ItemB rfl (by decide) rfl rfl rfl rfl
    (fun n => by rw [hp]; simp)
    (by decide) (by decide) (by decide) (by decide)

/-!
Membership lemmas used by the checklist-reset and idempotence claims.
-/

theorem mem_itemsOf {s : Store} {b : Nat} {it : Item} :
    it ∈ s.itemsOf b ↔ it ∈ s.items ∧ it.event_id = b := by
  unfold Store.itemsOf
  rw [List.mem_filter]
  simp

theorem syncItems_mem {s : Store} {ev : Event} {d : Option String} {it : Item}
    (h : it ∈ (syncItems s ev d).items) : it ∈ s.items ∨ it.is_checked = false := by
  unfold syncItems at h
  split at h
  · exact Or.inl h
  · simp only [List.mem_append] at h
    rcases h with h | h
    · exact Or.inl (List.mem_filter.mp h).1
    · right
      rw [List.mem_map] at h
      obtain ⟨p, -, hp⟩ := h
      rw [← hp]

theorem foldCascade_mem_items {s : Store} {l : List Event} {it : Item}
    (h : it ∈ (l.foldl (fun st e => deleteEventCascade st e.id) s).items) :
    it ∈ s.items := by
  rw [foldCascade_items] at h
  exact (List.mem_filter.mp h).1

theorem instanceCleanupStep_mem_items {s : Store} {g : GEvent} {it : Item}
    (h : it ∈ (instanceCleanupStep s g).items) : it ∈ s.items := by
  unfold instanceCleanupStep at h
  split at h
  · unfold cleanupOrphanedInstance at h
    simp only [] at h
    exact foldCascade_mem_items h
  · exact h

theorem resetItems_unchecked {s : Store} {i : Nat} {it : Item}
    (h : it ∈ (resetItems s i).items) (he : it.event_id = i) :
    it.is_checked = false := by
  unfold resetItems at h
  simp only [List.mem_map] at h
  obtain ⟨x, -, hx⟩ := h
  by_cases hxi : (x.event_id == i) = true
  · rw [if_pos hxi] at hx
    rw [← hx]
  · rw [if_neg hxi] at hx
    subst hx
    exact absurd (by simpa using he) hxi

theorem lastWithName_mem {l : List Item} {n : String} {jt : Item}
    (h : lastWithName l n = some jt) : jt ∈ l ∧ jt.name = n := by
  unfold lastWithName at h
  have hm := List.mem_of_mem_getLast? h
  rw [List.mem_filter] at hm
  exact ⟨hm.1, by simpa using hm.2⟩

theorem not_mem_delIds {evItems : List Item} {parsed : List String} {it : Item}
    (hUniq : (evItems.map Item.id).Nodup) (hit : it ∈ evItems)
    (hname : it.name ∈ parsed) :
    ∀ n ∈ dedupF (evItems.map (fun i => i.name)),
      (if parsed.contains n then none
       else (lastWithName evItems n).map (fun i => i.id)) ≠ some it.id := by
  intro n hn hf
  split at hf
  · simp at hf
  · rename_i hcon
    rw [Option.map_eq_some'] at hf
    obtain ⟨jt, hjt, hjid⟩ := hf
    obtain ⟨hjm, hjn⟩ := lastWithName_mem hjt
    have heq : jt = it := List.inj_on_of_nodup_map hUniq hjm hit hjid
    subst heq
    rw [hjn] at hname
    simp [hname] at hcon

/-- C3: for a non-archived stored event, an Upsert whose record start or end
time differs from the stored values leaves every item of the event unchecked
(surviving and fresh alike), while an Upsert whose times equal the stored
values preserves every surviving item's row untouched — any item whose name
the new description still lists keeps its exact record, and any item checked
afterwards is an unmodified original — so no checked flag is changed. -/
theorem checklist_reset_law (s : Store) (g : GEvent) (now : DT) (ev : Event)
    (hfind : s.events.find? (fun e => e.google_event_id == g.id) = some ev)
    (harch : ev.is_archived = false)
    (hUniq : ((s.itemsOf ev.id).map Item.id).Nodup) :
    ((ev.start_time ≠ g.start ∨ ev.end_time ≠ g.endt) →
      ∀ it ∈ (upsertEvent s g now).1.itemsOf ev.id, it.is_checked = false) ∧
    ((ev.start_time = g.start ∧ ev.end_time = g.endt) →
      (∀ it ∈ s.itemsOf ev.id,
        it.name ∈ parse_items_from_description g.description →
          it ∈ (upsertEvent s g now).1.itemsOf ev.id) ∧
      (∀ it ∈ (upsertEvent s g now).1.itemsOf ev.id, it.is_checked = true →
        it ∈ s.itemsOf ev.id)) := by
  have hgid : ev.google_event_id = g.id := by
    have := List.find?_some hfind
    simpa using this
  have hup : upsertEvent s g now = (upsertExisting s g now ev, false) := by
    unfold upsertEvent
    rw [hfind]
  rw [hup]
  simp only []
  constructor
  · -- time changed: the reset fires, fresh items are unchecked, survivors
    -- carry the reset state
    intro htime it hit
    unfold upsertExisting at hit
    rw [syncAttendees_itemsOf] at hit
    obtain ⟨hmem, hev⟩ := mem_itemsOf.mp hit
    rcases syncItems_mem hmem with h3 | hchk
    · have h2 := instanceCleanupStep_mem_items h3
      have hreset : resetStep (replaceEventStep s ev (updatedEvent g now ev)) g ev
          = resetItems (replaceEventStep s ev (updatedEvent g now ev)) ev.id := by
        unfold resetStep
        rw [if_pos]
        rw [harch]
        rcases htime with h | h <;> simp [bne_iff_ne, h]
      rw [hreset] at h2
      exact resetItems_unchecked h2 hev
    · exact hchk
  · -- identical times: no reset, survivors keep their exact rows
    rintro ⟨hst, hen⟩
    have hnores : resetStep (replaceEventStep s ev (updatedEvent g now ev)) g ev
        = replaceEventStep s ev (updatedEvent g now ev) := by
      unfold resetStep
      rw [if_neg]
      simp [bne_iff_ne, hst, hen]
    have hclean : ∀ o ∈ (resetStep (replaceEventStep s ev (updatedEvent g now ev)) g ev).events,
        o.google_event_id ≠ g.id → o.id ≠ ev.id := by
      intro o ho hog
      rw [resetStep_events, replaceEventStep_events, List.mem_map] at ho
      obtain ⟨e, he, hfe⟩ := ho
      by_cases hid : (e.id == ev.id) = true
      · rw [if_pos hid] at hfe
        apply absurd hog
        rw [← hfe]
        simp only [updatedEvent, hgid, ne_eq, not_not]
      · rw [if_neg hid] at hfe
        rw [← hfe]
        simpa using hid
    have hs3 : (instanceCleanupStep
        (resetStep (replaceEventStep s ev (updatedEvent g now ev)) g ev) g).itemsOf ev.id
        = s.itemsOf ev.id := by
      rw [instanceCleanupStep_itemsOf _ _ hclean, hnores, replaceEventStep_itemsOf]
    constructor
    · -- every still-listed item keeps its row
      intro it hit hname
      unfold upsertExisting
      rw [syncAttendees_itemsOf]
      rw [mem_itemsOf]
      refine ⟨?_, (mem_itemsOf.mp hit).2⟩
      unfold syncItems
      rw [if_neg (by rw [show (updatedEvent g now ev).is_archived = ev.is_archived from rfl, harch]; simp)]
      simp only [List.mem_append]
      left
      rw [List.mem_filter]
      have hitseq : (instanceCleanupStep
          (resetStep (replaceEventStep s ev (updatedEvent g now ev)) g ev) g).itemsOf
          (updatedEvent g now ev).id = s.itemsOf ev.id := hs3
      constructor
      · have hmem3 : it ∈ (instanceCleanupStep
            (resetStep (replaceEventStep s ev (updatedEvent g now ev)) g ev) g).itemsOf
            (updatedEvent g now ev).id := hitseq.symm ▸ hit
        exact (mem_itemsOf.mp hmem3).1
      · rw [hitseq]
        have hnot : it.id ∉ ((dedupF ((s.itemsOf ev.id).map (fun i => i.name))).filterMap
            (fun n => if (parse_items_from_description g.description).contains n then none
              else (lastWithName (s.itemsOf ev.id) n).map (fun i => i.id))) := by
          intro hmem2
          rw [List.mem_filterMap] at hmem2
          obtain ⟨n, hn, hfn⟩ := hmem2
          exact not_mem_delIds hUniq hit hname n hn hfn
        simpa using hnot
    · -- any checked item afterwards is an untouched original
      intro it hit hchk
      unfold upsertExisting at hit
      rw [syncAttendees_itemsOf] at hit
      obtain ⟨hmem, hev⟩ := mem_itemsOf.mp hit
      rcases syncItems_mem hmem with h3 | hf
      · have h2 := instanceCleanupStep_mem_items h3
        rw [hnores] at h2
        exact mem_itemsOf.mpr ⟨h2, hev⟩
      · rw [hf] at hchk
        exact absurd hchk (by simp)

/-- C3 witness data: one checked surviving item, and a record moving the
start time. -/
def c3Event : Event :=
  { id := 0, google_event_id := "g", recurring_event_id := none, title := "T",
    description := some "Items:\n- A", start_time := 0, end_time := 60,
    last_synced := 0, is_archived := false }

def c3Store : Store :=
  { events := [c3Event],
    items := [{ id := 1, event_id := 0, name := "A", is_checked := true,
                source := "parsed" }],
    attendees := [], confirmations := [], nextId := 2 }

def c3Record : GEvent :=
  { id := "g", status := none, summary := some "T",
    description := some "Items:\n- A", start := 30, endt := 60,
    recurringEventId := none, attendees := [] }

/-- C3 witness: after an Upsert whose start time moved from 0 to 30, every
item of the concrete event is unchecked. -/
theorem checklist_reset_law_witness :
    ((upsertEvent c3Store c3Record 9).1.itemsOf 0).all
      (fun it => !it.is_checked) = true := by
  rw [List.all_eq_true]
  intro it hit
  have hr := (checklist_reset_law c3Store c3Record 9 c3Event (by decide) rfl
    (by decide)).1 (Or.inl (by decide)) it hit
  simp [hr]

/-- C6 counterexample data: a gateway that answers every list call with the
token-invalid signal, and an empty store. -/
def c6Gateway : Option String → GwResp := fun _ => GwResp.tokenInvalid

def c6Store : Store :=
  { events := [], items := [], attendees := [], confirmations := [], nextId := 0 }

/-- C6 counterexample: against a gateway that persistently rejects the sync
token — including on the retried tokenless full sync — the except branch for
HTTP 410 clears the token and re-invokes sync_calendar every time: with
recursion budget 3 the fallback edge is taken 3 times, with budget 5 it is
taken 5 times, and no failure is ever propagated; the recursion is not
bounded to depth one. -/
theorem token_retry_unbounded :
    syncCalendarModel c6Gateway 0 3 c6Store (some "tok") = (SyncOutcome.noFuel, 3) ∧
    syncCalendarModel c6Gateway 0 5 c6Store (some "tok") = (SyncOutcome.noFuel, 5) := by
  constructor <;> rfl

/-- C6 amended: the fallback edge carries no depth counter — it is taken once
per token-invalid response — so it is taken at most once per invocation
exactly when the gateway never answers a tokenless (full-sync) list call
with the token-invalid signal; under that assumption any further failure of
the retried full sync is propagated rather than retried. -/
theorem token_retry_bounded_when_full_sync_accepted
    (gw : Option String → GwResp) (now : DT) (fuel : Nat) (s : Store)
    (tok : Option String)
    (hfull : gw none ≠ GwResp.tokenInvalid) (hfuel : 2 ≤ fuel) :
    (syncCalendarModel gw now fuel s tok).2 ≤ 1 := by
  obtain ⟨n, rfl⟩ : ∃ n, fuel = n + 2 := ⟨fuel - 2, by omega⟩
  have inner : ∀ m (s2 : Store), (syncCalendarModel gw now (m + 1) s2 none).2 = 0 := by
    intro m s2
    unfold syncCalendarModel
    cases hg : gw none with
    | pages ps t => simp
    | tokenInvalid => exact absurd hg hfull
    | httpErr c => simp
  cases tok with
  | none =>
    rw [inner (n + 1) s]
    omega
  | some t0 =>
    unfold syncCalendarModel
    cases hg : gw (some t0) with
    | pages ps t => simp
    | tokenInvalid =>
      simp only []
      rw [inner n s]
    | httpErr c => simp

/-- C6 witness data: the gateway rejects the stored token once, then accepts
the tokenless full sync. -/
def c6wGateway : Option String → GwResp := fun t =>
  match t with
  | some _ => GwResp.tokenInvalid
  | none => GwResp.pages [] none

/-- C6 witness: with that gateway the fallback is taken at most once. -/
theorem token_retry_bounded_when_full_sync_accepted_witness :
    (syncCalendarModel c6wGateway 0 2 c6Store (some "tok")).2 ≤ 1 := by
  exact token_retry_bounded_when_full_sync_accepted c6wGateway 0 2 c6Store
    (some "tok") (by decide) (by omega)

/-!
Lemmas for the orphan-sweep claim.
-/

theorem dayStart_bounds (t : DT) : dayStart t ≤ t ∧ t < dayStart t + 1440 := by
  have h1 : (0 : Int) ≤ t % 1440 := Int.emod_nonneg t (by norm_num)
  have h2 : t % 1440 < 1440 := Int.emod_lt_of_pos t (by norm_num)
  unfold dayStart
  constructor
  · linarith
  · linarith

theorem find?_gid_eq {l : List Event} (h : (l.map Event.google_event_id).Nodup)
    {Y : Event} (hY : Y ∈ l) :
    l.find? (fun e => e.google_event_id == Y.google_event_id) = some Y := by
  induction l with
  | nil => simp at hY
  | cons a t ih =>
    rw [List.map_cons, List.nodup_cons] at h
    rcases List.mem_cons.mp hY with rfl | hYt
    · apply List.find?_cons_of_pos
      show (Y.google_event_id == Y.google_event_id) = true
      simp
    · have hne : a.google_event_id ≠ Y.google_event_id := by
        intro hc
        apply h.1
        rw [hc]
        exact List.mem_map_of_mem _ hYt
      rw [List.find?_cons_of_neg t (by simpa using hne), ih h.2 hYt]

theorem mem_map_replace {l : List Event} {Y upd o : Event}
    (ho : o ∈ l.map (fun e => if e.id == Y.id then upd else e)) :
    o = upd ∨ (o ∈ l ∧ o.id ≠ Y.id) := by
  rw [List.mem_map] at ho
  obtain ⟨e, he, hfe⟩ := ho
  by_cases hid : (e.id == Y.id) = true
  · rw [if_pos hid] at hfe
    exact Or.inl hfe.symm
  · rw [if_neg hid] at hfe
    subst hfe
    exact Or.inr ⟨he, by simpa using hid⟩

theorem upd_mem_map_replace {l : List Event} {Y upd : Event} (hY : Y ∈ l) :
    upd ∈ l.map (fun e => if e.id == Y.id then upd else e) := by
  have := List.mem_map_of_mem (fun e => if e.id == Y.id then upd else e) hY
  simpa using this

theorem mem_map_replace_of_ne {l : List Event} {Y upd X : Event} (hX : X ∈ l)
    (hne : X.id ≠ Y.id) :
    X ∈ l.map (fun e => if e.id == Y.id then upd else e) := by
  have := List.mem_map_of_mem (fun e => if e.id == Y.id then upd else e) hX
  simpa [hne] using this

theorem syncItems_attendees (s : Store) (ev : Event) (d : Option String) :
    (syncItems s ev d).attendees = s.attendees := by
  unfold syncItems
  split <;> rfl

theorem syncItems_confirmations (s : Store) (ev : Event) (d : Option String) :
    (syncItems s ev d).confirmations = s.confirmations := by
  unfold syncItems
  split <;> rfl

theorem syncAttendees_confirmations (s : Store) (ev : Event) (atts : List GAttendee) :
    (syncAttendees s ev atts).confirmations = s.confirmations := rfl

theorem syncItems_mem_items {s : Store} {ev : Event} {d : Option String} {it : Item}
    (h : it ∈ (syncItems s ev d).items) : it ∈ s.items ∨ it.event_id = ev.id := by
  unfold syncItems at h
  split at h
  · exact Or.inl h
  · simp only [List.mem_append] at h
    rcases h with h | h
    · exact Or.inl (List.mem_filter.mp h).1
    · right
      rw [List.mem_map] at h
      obtain ⟨p, -, hp⟩ := h
      rw [← hp]

theorem syncAttendees_mem {s : Store} {ev : Event} {atts : List GAttendee} {a : Attendee}
    (h : a ∈ (syncAttendees s ev atts).attendees) :
    a ∈ s.attendees ∨ a.event_id = ev.id := by
  unfold syncAttendees at h
  simp only [List.mem_append] at h
  rcases h with h | h
  · exact Or.inl (List.mem_filter.mp h).1
  · right
    rw [List.mem_map] at h
    obtain ⟨p, -, hp⟩ := h
    rw [← hp]

/-- C5: two non-archived local events X (stale) and Y sharing a series id,
with different remote ids and starts on the same calendar day; a full sync
whose single page returns only Y's unchanged record deletes X together with
all its items, attendees and confirmation rows, and retains Y. -/
theorem orphan_sweep_completeness (s : Store) (rid : String) (X Y : Event)
    (r : GEvent) (now : DT)
    (hIds : (s.events.map Event.id).Nodup)
    (hGids : (s.events.map Event.google_event_id).Nodup)
    (hX : X ∈ s.events) (hY : Y ∈ s.events)
    (hXr : X.recurring_event_id = some rid) (hYr : Y.recurring_event_id = some rid)
    (hXa : X.is_archived = false) (hYa : Y.is_archived = false)
    (hneq : X.google_event_id ≠ Y.google_event_id)
    (hrid : r.id = Y.google_event_id)
    (hrstat : r.status ≠ some "cancelled")
    (hrrec : r.recurringEventId = some rid)
    (hrstart : r.start = Y.start_time) (hrend : r.endt = Y.end_time)
    (hday : dayStart X.start_time = dayStart Y.start_time) :
    (∀ e ∈ (runFullSync s [[r]] now).1.events,
        e.google_event_id ≠ X.google_event_id) ∧
    (∀ it ∈ (runFullSync s [[r]] now).1.items, it.event_id ≠ X.id) ∧
    (∀ a ∈ (runFullSync s [[r]] now).1.attendees, a.event_id ≠ X.id) ∧
    (∀ cf ∈ (runFullSync s [[r]] now).1.confirmations, cf.event_id ≠ X.id) ∧
    (∃ e ∈ (runFullSync s [[r]] now).1.events,
        e.google_event_id = Y.google_event_id) := by
  have hXY : X ≠ Y := fun hxy => hneq (by rw [hxy])
  have hXYid : X.id ≠ Y.id := fun hid =>
    hXY (List.inj_on_of_nodup_map hIds hX hY hid)
  have hfind : s.events.find? (fun e => e.google_event_id == r.id) = some Y := by
    rw [hrid]
    exact find?_gid_eq hGids hY
  have hups : upsertEvent s r now = (upsertExisting s r now Y, false) := by
    unfold upsertEvent
    rw [hfind]
  have hres : resetStep (replaceEventStep s Y (updatedEvent r now Y)) r Y
      = replaceEventStep s Y (updatedEvent r now Y) := by
    unfold resetStep
    rw [if_neg]
    simp [bne_iff_ne, hrstart, hrend]
  have hinst : ∀ (S : Store), instanceCleanupStep S r
      = (S.events.filter (orphanPred rid r.id (dayStart r.start)
          (dayStart r.start + 1440))).foldl
          (fun st e => deleteEventCascade st e.id) S := by
    intro S
    unfold instanceCleanupStep
    rw [hrrec]
    rfl
  have hue : upsertExisting s r now Y
      = syncAttendees
          (syncItems
            (((replaceEventStep s Y (updatedEvent r now Y)).events.filter
                (orphanPred rid r.id (dayStart r.start) (dayStart r.start + 1440))).foldl
              (fun st e => deleteEventCascade st e.id)
              (replaceEventStep s Y (updatedEvent r now Y)))
            (updatedEvent r now Y) r.description)
          (updatedEvent r now Y) r.attendees := by
    unfold upsertExisting
    rw [hres, hinst]
  set upd := updatedEvent r now Y with hupd
  have hupdgid : upd.google_event_id = r.id := by
    rw [hupd, hrid]
    rfl
  have hupdid : upd.id = Y.id := rfl
  set s2 := replaceEventStep s Y upd with hs2def
  have hs2events : s2.events = s.events.map (fun e => if e.id == Y.id then upd else e) := by
    rw [hs2def]
    rfl
  set O := s2.events.filter (orphanPred rid r.id (dayStart r.start)
    (dayStart r.start + 1440)) with hO
  have hXinO : X ∈ O := by
    rw [hO, List.mem_filter]
    constructor
    · rw [hs2events]
      exact mem_map_replace_of_ne hX hXYid
    · unfold orphanPred
      have hdb := dayStart_bounds X.start_time
      have hdseq : dayStart r.start = dayStart X.start_time := by
        rw [hrstart, ← hday]
      simp only [Bool.and_eq_true, beq_iff_eq, bne_iff_ne, decide_eq_true_eq,
        Bool.not_eq_true']
      refine ⟨⟨⟨⟨hXr, ?_⟩, ?_⟩, ?_⟩, hXa⟩
      · rw [hrid]
        exact hneq
      · rw [hdseq]
        exact hdb.1
      · rw [hdseq]
        exact hdb.2
  have hOid : ∀ o ∈ O, o.id ≠ Y.id := by
    intro o ho
    rw [hO, List.mem_filter] at ho
    rcases mem_map_replace (hs2events ▸ ho.1) with rfl | hcase
    · exfalso
      have hop := ho.2
      unfold orphanPred at hop
      simp only [Bool.and_eq_true, bne_iff_ne] at hop
      exact hop.1.1.1.2 hupdgid
    · exact hcase.2
  set s3 := O.foldl (fun st e => deleteEventCascade st e.id) s2 with hs3def
  have hs3events : s3.events = s2.events.filter (fun e => O.all (fun o => e.id != o.id)) := by
    rw [hs3def]
    exact foldCascade_events s2 O
  have hs3_no_X_gid : ∀ e ∈ s3.events, e.google_event_id ≠ X.google_event_id := by
    intro e he hg
    rw [hs3events, List.mem_filter] at he
    rcases mem_map_replace (hs2events ▸ he.1) with rfl | hcase
    · rw [hupdgid, hrid] at hg
      exact hneq hg.symm
    · have heX : e = X := List.inj_on_of_nodup_map hGids hcase.1 hX hg
      rw [heX] at he
      have hall := he.2
      rw [List.all_eq_true] at hall
      have hfalse := hall X hXinO
      simp at hfalse
  have hs3_items : ∀ it ∈ s3.items, it.event_id ≠ X.id := by
    intro it hit
    rw [hs3def, foldCascade_items s2 O, List.mem_filter] at hit
    have hall := hit.2
    rw [List.all_eq_true] at hall
    have := hall X hXinO
    simpa using this
  have hs3_att : ∀ a ∈ s3.attendees, a.event_id ≠ X.id := by
    intro a ha
    rw [hs3def, foldCascade_attendees s2 O, List.mem_filter] at ha
    have hall := ha.2
    rw [List.all_eq_true] at hall
    have := hall X hXinO
    simpa using this
  have hs3_conf : ∀ cf ∈ s3.confirmations, cf.event_id ≠ X.id := by
    intro cf hcf
    rw [hs3def, foldCascade_confirmations s2 O, List.mem_filter] at hcf
    have hall := hcf.2
    rw [List.all_eq_true] at hall
    have := hall X hXinO
    simpa using this
  have hupd_s3 : upd ∈ s3.events := by
    rw [hs3events, List.mem_filter]
    refine ⟨hs2events ▸ upd_mem_map_replace hY, ?_⟩
    rw [List.all_eq_true]
    intro o ho
    simp only [bne_iff_ne, ne_eq, decide_eq_true_eq]
    rw [hupdid]
    exact fun hc => hOid o ho hc.symm
  set s5 := syncAttendees (syncItems s3 upd r.description) upd r.attendees with hs5def
  have hs5events : s5.events = s3.events := by
    rw [hs5def, syncAttendees_events, syncItems_events]
  have hs5_items : ∀ it ∈ s5.items, it.event_id ≠ X.id := by
    intro it hit
    rw [hs5def] at hit
    rw [show (syncAttendees (syncItems s3 upd r.description) upd r.attendees).items
        = (syncItems s3 upd r.description).items from rfl] at hit
    rcases syncItems_mem_items hit with h | h
    · exact hs3_items it h
    · rw [h, hupdid]
      exact fun hc => hXYid hc.symm
  have hs5_att : ∀ a ∈ s5.attendees, a.event_id ≠ X.id := by
    intro a ha
    rw [hs5def] at ha
    rcases syncAttendees_mem ha with h | h
    · rw [syncItems_attendees] at h
      exact hs3_att a h
    · rw [h, hupdid]
      exact fun hc => hXYid hc.symm
  have hs5_conf : ∀ cf ∈ s5.confirmations, cf.event_id ≠ X.id := by
    intro cf hcf
    rw [hs5def, syncAttendees_confirmations, syncItems_confirmations] at hcf
    exact hs3_conf cf hcf
  have hPR : processRecords s [r] now true
      = (s5, { created := 0, updated := 1, deleted := 0 }, [r.id]) := by
    unfold processRecords
    rw [List.foldl_cons, List.foldl_nil]
    unfold processRecord
    rw [if_neg (by simp [hrstat])]
    simp only [hups, hue]
    rw [hs5def, hs3def, hO, hs2def, hupd]
    simp
  have hflat : ([[r]] : List (List GEvent)).flatten = [r] := by simp
  have hrun : (runFullSync s [[r]] now).1
      = ((s5.events.filter (fun e => !e.is_archived && decide (now - 120 ≤ e.end_time)
            && decide (e.start_time < now + 43200))).filter
          (fun e => !([r.id].contains e.google_event_id))).foldl
          (fun st e => deleteEventCascade st e.id) s5 := by
    unfold runFullSync
    rw [hflat, hPR]
    rfl
  set doomed := (s5.events.filter (fun e =>
    !e.is_archived && decide (now - 120 ≤ e.end_time)
      && decide (e.start_time < now + 43200))).filter
    (fun e => !([r.id].contains e.google_event_id)) with hdoomed
  have hdoomed_sub : ∀ o ∈ doomed, o ∈ s5.events := by
    intro o ho
    rw [hdoomed] at ho
    exact (List.mem_filter.mp (List.mem_filter.mp ho).1).1
  have hdoomed_ne_upd : ∀ o ∈ doomed, o.id ≠ upd.id := by
    intro o ho hoid
    have hom := hdoomed_sub o ho
    rw [hs5events, hs3events, List.mem_filter] at hom
    rcases mem_map_replace (hs2events ▸ hom.1) with rfl | hcase
    · rw [hdoomed, List.mem_filter] at ho
      have hcontains := ho.2
      rw [hupdgid] at hcontains
      simp at hcontains
    · rw [hupdid] at hoid
      exact hcase.2 hoid
  rw [hrun]
  refine ⟨?_, ?_, ?_, ?_, ?_⟩
  · intro e he hg
    have hmem : e ∈ s5.events := by
      rw [foldCascade_events s5 doomed, List.mem_filter] at he
      exact he.1
    rw [hs5events] at hmem
    exact hs3_no_X_gid e hmem hg
  · intro it hit
    rw [foldCascade_items s5 doomed, List.mem_filter] at hit
    exact hs5_items it hit.1
  · intro a ha
    rw [foldCascade_attendees s5 doomed, List.mem_filter] at ha
    exact hs5_att a ha.1
  · intro cf hcf
    rw [foldCascade_confirmations s5 doomed, List.mem_filter] at hcf
    exact hs5_conf cf hcf.1
  · refine ⟨upd, ?_, by rw [hupdgid, hrid]⟩
    rw [foldCascade_events s5 doomed, List.mem_filter]
    refine ⟨by rw [hs5events]; exact hupd_s3, ?_⟩
    rw [List.all_eq_true]
    intro o ho
    simp only [bne_iff_ne, ne_eq, decide_eq_true_eq]
    exact fun hc => hdoomed_ne_upd o ho hc.symm

/-- C5 witness data: stale instance X (with an item, an attendee and a
confirmation row) and replacement Y of the same series on the same day; the
sync page carries only Y's record. -/
def c5X : Event :=
  { id := 0, google_event_id := "x", recurring_event_id := some "R",
    title := "Old slot", description := none, start_time := 100, end_time := 160,
    last_synced := 0, is_archived := false }

def c5Y : Event :=
  { id := 1, google_event_id := "y", recurring_event_id := some "R",
    title := "New slot", description := none, start_time := 200, end_time := 260,
    last_synced := 0, is_archived := false }

def c5Store : Store :=
  { events := [c5X, c5Y],
    items := [{ id := 10, event_id := 0, name := "A", is_checked := true,
                source := "manual" }],
    attendees := [{ id := 11, event_id := 0, email := "e", display_name := none,
                    response_status := "accepted" }],
    confirmations := [{ id := 12, event_id := 0 }],
    nextId := 20 }

def c5Record : GEvent :=
  { id := "y", status := none, summary := some "New slot", description := none,
    start := 200, endt := 260, recurringEventId := some "R", attendees := [] }

/-- C5 witness: on the concrete two-event store, the full sync deletes X with
its item, attendee and confirmation rows and retains Y. -/
theorem orphan_sweep_completeness_witness :
    (∀ e ∈ (runFullSync c5Store [[c5Record]] 150).1.events,
        e.google_event_id ≠ c5X.google_event_id) ∧
    (∀ it ∈ (runFullSync c5Store [[c5Record]] 150).1.items, it.event_id ≠ c5X.id) ∧
    (∀ a ∈ (runFullSync c5Store [[c5Record]] 150).1.attendees,
        a.event_id ≠ c5X.id) ∧
    (∀ cf ∈ (runFullSync c5Store [[c5Record]] 150).1.confirmations,
        cf.event_id ≠ c5X.id) ∧
    (∃ e ∈ (runFullSync c5Store [[c5Record]] 150).1.events,
        e.google_event_id = c5Y.google_event_id) := by
  exact orphan_sweep_completeness c5Store "R" c5X c5Y c5Record 150
    (by decide) (by decide) (by decide) (by decide) rfl rfl rfl rfl
    (by decide) rfl (by decide) rfl rfl rfl (by decide)

/-!
Lemmas for the idempotence claim.
-/

theorem filter_map_comm_of_pred {α} (f : α → α) (p : α → Bool)
    (hp : ∀ x, p (f x) = p x) (l : List α) :
    (l.map f).filter p = (l.filter p).map f := by
  induction l with
  | nil => rfl
  | cons a t ih =>
    simp only [List.map_cons, List.filter_cons, hp a]
    by_cases hq : p a = true
    · simp [hq, ih]
    · simp [hq, ih]

theorem resetItems_itemsOf (s : Store) (i b : Nat) :
    (resetItems s i).itemsOf b = (s.itemsOf b).map
      (fun it => if it.event_id == i then { it with is_checked := false } else it) := by
  unfold resetItems Store.itemsOf
  simp only []
  apply filter_map_comm_of_pred
  intro x
  by_cases h : (x.event_id == i) = true
  · rw [if_pos h]
  · rw [if_neg h]

theorem resetStep_itemsOf_names (s : Store) (g : GEvent) (E : Event) (b : Nat) :
    ((resetStep s g E).itemsOf b).map (fun it => it.name)
      = (s.itemsOf b).map (fun it => it.name) := by
  unfold resetStep
  split
  · rw [resetItems_itemsOf, List.map_map]
    apply List.map_congr_left
    intro x _
    simp only [Function.comp_apply]
    split <;> rfl
  · rfl

theorem resetStep_itemsOf_ids (s : Store) (g : GEvent) (E : Event) (b : Nat) :
    ((resetStep s g E).itemsOf b).map (fun it => it.id)
      = (s.itemsOf b).map (fun it => it.id) := by
  unfold resetStep
  split
  · rw [resetItems_itemsOf, List.map_map]
    apply List.map_congr_left
    intro x _
    simp only [Function.comp_apply]
    split <;> rfl
  · rfl

theorem lastWithName_of_nodup {l : List Item} {it : Item}
    (h : (l.map (fun i => i.name)).Nodup) (hit : it ∈ l) :
    lastWithName l it.name = some it := by
  induction l with
  | nil => simp at hit
  | cons a t ih =>
    rw [List.map_cons, List.nodup_cons] at h
    rcases List.mem_cons.mp hit with rfl | hmem
    · unfold lastWithName
      rw [List.filter_cons, if_pos (by simp)]
      have ht : t.filter (fun i => i.name == it.name) = [] := by
        rw [List.filter_eq_nil_iff]
        intro x hx hcon
        apply h.1
        have hxn : x.name = it.name := by simpa using hcon
        rw [← hxn]
        exact List.mem_map_of_mem _ hx
      rw [ht]
      rfl
    · have hne : a.name ≠ it.name := by
        intro hc
        apply h.1
        rw [hc]
        exact List.mem_map_of_mem _ hmem
      unfold lastWithName
      rw [List.filter_cons, if_neg (by simpa using hne)]
      exact ih h.2 hmem

theorem instanceCleanupStep_nextId (s : Store) (g : GEvent) :
    (instanceCleanupStep s g).nextId = s.nextId := by
  unfold instanceCleanupStep
  split
  · unfold cleanupOrphanedInstance
    simp only []
    exact foldCascade_nextId _ _
  · rfl

theorem instanceCleanupStep_mem_events {s : Store} {g : GEvent} {e : Event}
    (h : e ∈ (instanceCleanupStep s g).events) : e ∈ s.events := by
  unfold instanceCleanupStep at h
  split at h
  · unfold cleanupOrphanedInstance at h
    simp only [] at h
    rw [foldCascade_events] at h
    exact (List.mem_filter.mp h).1
  · exact h

theorem replace_cleanup_itemsOf (s : Store) (g : GEvent) (ev upd2 : Event)
    (hupdgid : upd2.google_event_id = g.id) :
    (instanceCleanupStep (resetStep (replaceEventStep s ev upd2) g ev) g).itemsOf ev.id
      = (resetStep (replaceEventStep s ev upd2) g ev).itemsOf ev.id := by
  apply instanceCleanupStep_itemsOf
  intro o ho hog
  rw [resetStep_events, replaceEventStep_events, List.mem_map] at ho
  obtain ⟨e, he, hfe⟩ := ho
  by_cases hid : (e.id == ev.id) = true
  · rw [if_pos hid] at hfe
    exact absurd (hfe ▸ hupdgid) hog
  · rw [if_neg hid] at hfe
    rw [← hfe]
    simpa using hid

theorem find?_eq_of_unique {l : List Event} {p : Event → Bool} {u : Event}
    (hu : u ∈ l) (hp : p u = true) (huniq : ∀ e ∈ l, p e = true → e = u) :
    l.find? p = some u := by
  induction l with
  | nil => simp at hu
  | cons a t ih =>
    by_cases hpa : p a = true
    · have ha : a = u := huniq a (by simp) hpa
      subst ha
      exact List.find?_cons_of_pos t hpa
    · rw [List.find?_cons_of_neg t (by simpa using hpa)]
      rcases List.mem_cons.mp hu with rfl | hut
      · exact absurd hp hpa
      · exact ih hut (fun e he hpe => huniq e (List.mem_cons_of_mem a he) hpe)

/-- The extracted-name list of the stored items of one event, the iteration
base of the name dictionary of _sync_items. -/
def namesList (T : Store) (E : Event) : List String :=
  (T.itemsOf E.id).map (fun it => it.name)

/-- The names _sync_items inserts: extracted names not already stored. -/
def toAddList (T : Store) (E : Event) (d : Option String) : List String :=
  (dedupF (parse_items_from_description d)).filter
    (fun n => !((namesList T E).contains n))

/-- The rows _sync_items inserts. -/
def newItemsList (T : Store) (E : Event) (d : Option String) : List Item :=
  (toAddList T E d).enum.map (fun p =>
    { id := T.nextId + p.1, event_id := E.id, name := p.2,
      is_checked := false, source := "parsed" })

/-- The row identities _sync_items deletes: the dictionary entry of every
stored name absent from the extracted set. -/
def delIdsList (T : Store) (E : Event) (d : Option String) : List Nat :=
  (dedupF (namesList T E)).filterMap
    (fun n => if (parse_items_from_description d).contains n then none
      else (lastWithName (T.itemsOf E.id) n).map (fun it => it.id))

theorem syncItems_eq (T : Store) (E : Event) (d : Option String) :
    syncItems T E d =
      if E.is_archived then T
      else
        { T with
          items := (T.items.filter (fun it => !((delIdsList T E d).contains it.id)))
            ++ newItemsList T E d,
          nextId := T.nextId + (newItemsList T E d).length } := rfl

theorem newItemsList_names (T : Store) (E : Event) (d : Option String) :
    (newItemsList T E d).map (fun i => i.name) = toAddList T E d := by
  unfold newItemsList
  rw [List.map_map]
  exact List.enum_map_snd _

theorem newItemsList_event_id {T : Store} {E : Event} {d : Option String} {it : Item}
    (h : it ∈ newItemsList T E d) : it.event_id = E.id := by
  unfold newItemsList at h
  rw [List.mem_map] at h
  obtain ⟨p, -, hp⟩ := h
  rw [← hp]

theorem itemsOf_syncItems (T : Store) (E : Event) (d : Option String)
    (harch : E.is_archived = false) :
    (syncItems T E d).itemsOf E.id
      = (T.itemsOf E.id).filter (fun it => !((delIdsList T E d).contains it.id))
        ++ newItemsList T E d := by
  rw [syncItems_eq, if_neg (by rw [harch]; simp)]
  unfold Store.itemsOf
  simp only [List.filter_append]
  rw [filter_swap]
  congr 1
  rw [List.filter_eq_self]
  intro a ha
  rw [newItemsList_event_id ha]
  simp

theorem mem_toAddList {T : Store} {E : Event} {d : Option String} {n : String} :
    n ∈ toAddList T E d ↔
      n ∈ parse_items_from_description d ∧ n ∉ namesList T E := by
  unfold toAddList
  rw [List.mem_filter, mem_dedupF]
  simp

theorem not_mem_delIdsList {T : Store} {E : Event} {d : Option String} {jt : Item}
    (hIds : ((T.itemsOf E.id).map (fun i => i.id)).Nodup)
    (hjt : jt ∈ T.itemsOf E.id)
    (hjn : jt.name ∈ parse_items_from_description d) :
    jt.id ∉ delIdsList T E d := by
  intro hmem
  unfold delIdsList at hmem
  rw [List.mem_filterMap] at hmem
  obtain ⟨m, hm, hfm⟩ := hmem
  split at hfm
  · simp at hfm
  · rename_i hmcon
    rw [Option.map_eq_some'] at hfm
    obtain ⟨kt, hkt, hkid⟩ := hfm
    obtain ⟨hktm, hktn⟩ := lastWithName_mem hkt
    have hkj : kt = jt := List.inj_on_of_nodup_map hIds hktm hjt hkid
    subst hkj
    rw [hktn] at hjn
    exact hmcon (by simpa using hjn)

theorem syncItems_names_sub {T : Store} {E : Event} {d : Option String}
    (harch : E.is_archived = false)
    (hNames : ((T.itemsOf E.id).map (fun i => i.name)).Nodup) :
    ∀ it ∈ (syncItems T E d).itemsOf E.id,
      it.name ∈ parse_items_from_description d := by
  intro it hit
  rw [itemsOf_syncItems T E d harch, List.mem_append] at hit
  rcases hit with hold | hnew
  · rw [List.mem_filter] at hold
    obtain ⟨hin, hkeep⟩ := hold
    by_contra hcon
    have hlast : lastWithName (T.itemsOf E.id) it.name = some it :=
      lastWithName_of_nodup hNames hin
    have hdelmem : it.id ∈ delIdsList T E d := by
      unfold delIdsList
      rw [List.mem_filterMap]
      refine ⟨it.name, ?_, ?_⟩
      · rw [mem_dedupF]
        exact List.mem_map_of_mem _ hin
      · rw [if_neg (by simpa using hcon), hlast]
        rfl
    simp only [Bool.not_eq_true'] at hkeep
    exact absurd (by simpa using hdelmem) (by simpa using hkeep)
  · have hn : it.name ∈ toAddList T E d := by
      rw [← newItemsList_names T E d]
      exact List.mem_map_of_mem _ hnew
    exact (mem_toAddList.mp hn).1

theorem syncItems_names_sup {T : Store} {E : Event} {d : Option String}
    (harch : E.is_archived = false)
    (hIds : ((T.itemsOf E.id).map (fun i => i.id)).Nodup) :
    ∀ n ∈ parse_items_from_description d,
      n ∈ ((syncItems T E d).itemsOf E.id).map (fun i => i.name) := by
  intro n hn
  rw [itemsOf_syncItems T E d harch, List.map_append, List.mem_append]
  by_cases hold : n ∈ namesList T E
  · left
    unfold namesList at hold
    rw [List.mem_map] at hold
    obtain ⟨jt, hjt, hjn⟩ := hold
    rw [List.mem_map]
    refine ⟨jt, ?_, hjn⟩
    rw [List.mem_filter]
    refine ⟨hjt, ?_⟩
    have := not_mem_delIdsList hIds hjt (hjn ▸ hn)
    simpa using this
  · right
    rw [newItemsList_names]
    exact mem_toAddList.mpr ⟨hn, hold⟩

theorem syncItems_names_nodup {T : Store} {E : Event} {d : Option String}
    (harch : E.is_archived = false)
    (hNames : ((T.itemsOf E.id).map (fun i => i.name)).Nodup) :
    (((syncItems T E d).itemsOf E.id).map (fun i => i.name)).Nodup := by
  rw [itemsOf_syncItems T E d harch, List.map_append, List.nodup_append]
  refine ⟨?_, ?_, ?_⟩
  · exact hNames.sublist ((List.filter_sublist _).map _)
  · rw [newItemsList_names]
    unfold toAddList
    exact (nodup_dedupF _).filter _
  · intro x hx hx2
    rw [newItemsList_names] at hx2
    have hxnot := (mem_toAddList.mp hx2).2
    apply hxnot
    rw [List.mem_map] at hx
    obtain ⟨it, hit, hitn⟩ := hx
    unfold namesList
    rw [← hitn]
    exact List.mem_map_of_mem _ ((List.filter_sublist _).mem hit)

theorem toAddList_eq_nil {T : Store} {E : Event} {d : Option String}
    (hsup : ∀ n ∈ parse_items_from_description d, n ∈ namesList T E) :
    toAddList T E d = [] := by
  unfold toAddList
  rw [List.filter_eq_nil_iff]
  intro n hn
  have := hsup n (mem_dedupF.mp hn)
  simp [this]

theorem delIdsList_eq_nil {T : Store} {E : Event} {d : Option String}
    (hsub : ∀ it ∈ T.itemsOf E.id, it.name ∈ parse_items_from_description d) :
    delIdsList T E d = [] := by
  unfold delIdsList
  rw [List.filterMap_eq_nil_iff]
  intro n hn
  rw [mem_dedupF] at hn
  unfold namesList at hn
  rw [List.mem_map] at hn
  obtain ⟨it, hit, hname⟩ := hn
  rw [if_pos]
  have := hsub it hit
  rw [hname] at this
  simpa using this

theorem syncItems_itemsOf_noop {T : Store} {E : Event} {d : Option String}
    (hsub : ∀ it ∈ T.itemsOf E.id, it.name ∈ parse_items_from_description d)
    (hsup : ∀ n ∈ parse_items_from_description d, n ∈ namesList T E) (b : Nat) :
    (syncItems T E d).itemsOf b = T.itemsOf b := by
  rw [syncItems_eq]
  split
  · rfl
  · unfold Store.itemsOf
    simp only []
    rw [delIdsList_eq_nil hsub]
    have hnew : newItemsList T E d = [] := by
      unfold newItemsList
      rw [toAddList_eq_nil hsup]
      rfl
    rw [hnew, List.append_nil]
    rw [List.filter_filter]
    apply List.filter_congr
    intro x _
    simp

/-- A second Upsert update pass over an event whose stored times already
match the record and whose stored item names already agree with the
extracted set (or which is archived) leaves the event's item rows exactly as
they were. -/
theorem upsertExisting_itemsOf_noop (S : Store) (g : GEvent) (now : DT) (E : Event)
    (hgid : E.google_event_id = g.id)
    (hstart : E.start_time = g.start) (hend : E.end_time = g.endt)
    (hcond : E.is_archived = true ∨
      ((∀ it ∈ S.itemsOf E.id, it.name ∈ parse_items_from_description g.description) ∧
       (∀ n ∈ parse_items_from_description g.description, n ∈ namesList S E))) :
    (upsertExisting S g now E).itemsOf E.id = S.itemsOf E.id := by
  unfold upsertExisting
  rw [syncAttendees_itemsOf]
  have hres : resetStep (replaceEventStep S E (updatedEvent g now E)) g E
      = replaceEventStep S E (updatedEvent g now E) := by
    unfold resetStep
    rw [if_neg]
    simp [bne_iff_ne, hstart, hend]
  have hcl : (instanceCleanupStep
      (resetStep (replaceEventStep S E (updatedEvent g now E)) g E) g).itemsOf E.id
      = S.itemsOf E.id := by
    rw [replace_cleanup_itemsOf S g E (updatedEvent g now E) hgid]
    rw [hres, replaceEventStep_itemsOf]
  rcases hcond with harch | ⟨hsub, hsup⟩
  · have hskip : syncItems
        (instanceCleanupStep (resetStep (replaceEventStep S E (updatedEvent g now E)) g E) g)
        (updatedEvent g now E) g.description
        = instanceCleanupStep (resetStep (replaceEventStep S E (updatedEvent g now E)) g E) g := by
      apply syncItems_archived
      exact harch
    rw [hskip]
    exact hcl
  · have hsub2 : ∀ it ∈ (instanceCleanupStep
        (resetStep (replaceEventStep S E (updatedEvent g now E)) g E) g).itemsOf
          (updatedEvent g now E).id,
        it.name ∈ parse_items_from_description g.description := by
      intro it hit
      apply hsub
      rw [← hcl]
      exact hit
    have hsup2 : ∀ n ∈ parse_items_from_description g.description,
        n ∈ namesList (instanceCleanupStep
          (resetStep (replaceEventStep S E (updatedEvent g now E)) g E) g)
          (updatedEvent g now E) := by
      intro n hn
      have hmem := hsup n hn
      unfold namesList at hmem ⊢
      show n ∈ ((instanceCleanupStep
        (resetStep (replaceEventStep S E (updatedEvent g now E)) g E) g).itemsOf E.id).map _
      rw [hcl]
      exact hmem
    rw [syncItems_itemsOf_noop hsub2 hsup2]
    exact hcl

theorem upsertEvent_update (s : Store) (g : GEvent) (now : DT) {ev : Event}
    (hf : s.events.find? (fun e => e.google_event_id == g.id) = some ev) :
    upsertEvent s g now = (upsertExisting s g now ev, false) := by
  unfold upsertEvent
  rw [hf]

theorem upsertEvent_create (s : Store) (g : GEvent) (now : DT)
    (hf : s.events.find? (fun e => e.google_event_id == g.id) = none) :
    upsertEvent s g now = (upsertNew s g now, true) := by
  unfold upsertEvent
  rw [hf]

theorem upsertExisting_events (s : Store) (g : GEvent) (now : DT) (ev : Event) :
    (upsertExisting s g now ev).events
      = (instanceCleanupStep (resetStep (replaceEventStep s ev
          (updatedEvent g now ev)) g ev) g).events := by
  unfold upsertExisting
  rw [syncAttendees_events, syncItems_events]

theorem upsertExisting_itemsOf_eq (s : Store) (g : GEvent) (now : DT) (ev : Event)
    (b : Nat) :
    (upsertExisting s g now ev).itemsOf b
      = (syncItems (instanceCleanupStep (resetStep (replaceEventStep s ev
          (updatedEvent g now ev)) g ev) g) (updatedEvent g now ev)
          g.description).itemsOf b := by
  unfold upsertExisting
  rw [syncAttendees_itemsOf]

theorem upsertNew_events (s : Store) (g : GEvent) (now : DT) :
    (upsertNew s g now).events
      = (instanceCleanupStep s g).events ++ [newEvent (instanceCleanupStep s g) g now] := by
  unfold upsertNew
  rw [syncAttendees_events, syncItems_events]
  rfl

theorem upsertNew_itemsOf_eq (s : Store) (g : GEvent) (now : DT) (b : Nat) :
    (upsertNew s g now).itemsOf b
      = (syncItems (insertEventStep (instanceCleanupStep s g)
          (newEvent (instanceCleanupStep s g) g now))
          (newEvent (instanceCleanupStep s g) g now) g.description).itemsOf b := by
  unfold upsertNew
  rw [syncAttendees_itemsOf]

theorem updated_mem_upsertExisting_events {s : Store} (g : GEvent) (now : DT)
    {ev : Event} (hev : ev ∈ s.events) (hgid1 : ev.google_event_id = g.id) :
    updatedEvent g now ev ∈ (upsertExisting s g now ev).events := by
  rw [upsertExisting_events]
  unfold instanceCleanupStep
  cases hr : g.recurringEventId with
  | none =>
    rw [resetStep_events, replaceEventStep_events]
    exact upd_mem_map_replace hev
  | some rid =>
    unfold cleanupOrphanedInstance
    simp only []
    rw [foldCascade_events, List.mem_filter]
    refine ⟨?_, ?_⟩
    · rw [resetStep_events, replaceEventStep_events]
      exact upd_mem_map_replace hev
    · simp only [List.all_eq_true]
      intro o ho
      rw [List.mem_filter] at ho
      have hoe := ho.1
      rw [resetStep_events, replaceEventStep_events] at hoe
      have hpred := ho.2
      unfold orphanPred at hpred
      simp only [Bool.and_eq_true, bne_iff_ne] at hpred
      simp only [bne_iff_ne, ne_eq]
      intro hcid
      rcases mem_map_replace hoe with heq | hcase
      · apply hpred.1.1.1.2
        rw [heq]
        exact hgid1
      · exact hcase.2 hcid.symm

theorem find2_update {s : Store} (g : GEvent) (now : DT) {ev : Event}
    (hGids : (s.events.map Event.google_event_id).Nodup)
    (hev : ev ∈ s.events) (hgid1 : ev.google_event_id = g.id) :
    (upsertExisting s g now ev).events.find? (fun e => e.google_event_id == g.id)
      = some (updatedEvent g now ev) := by
  apply find?_eq_of_unique
  · exact updated_mem_upsertExisting_events g now hev hgid1
  · show ((updatedEvent g now ev).google_event_id == g.id) = true
    simp only [beq_iff_eq]
    exact hgid1
  · intro e he hpe
    rw [upsertExisting_events] at he
    have he2 := instanceCleanupStep_mem_events he
    rw [resetStep_events, replaceEventStep_events] at he2
    rcases mem_map_replace he2 with heq | hcase
    · exact heq
    · exfalso
      have hegid : e.google_event_id = g.id := by simpa using hpe
      have hEev : e = ev :=
        List.inj_on_of_nodup_map hGids hcase.1 hev (by rw [hegid, hgid1])
      exact hcase.2 (by rw [hEev])

theorem hT1_names (s : Store) (g : GEvent) (now : DT) (ev : Event)
    (hgid1 : ev.google_event_id = g.id) :
    (((instanceCleanupStep (resetStep (replaceEventStep s ev
        (updatedEvent g now ev)) g ev) g).itemsOf ev.id).map (fun i => i.name))
      = (s.itemsOf ev.id).map (fun i => i.name) := by
  rw [replace_cleanup_itemsOf s g ev (updatedEvent g now ev) hgid1]
  rw [resetStep_itemsOf_names, replaceEventStep_itemsOf]

theorem hT1_ids (s : Store) (g : GEvent) (now : DT) (ev : Event)
    (hgid1 : ev.google_event_id = g.id) :
    (((instanceCleanupStep (resetStep (replaceEventStep s ev
        (updatedEvent g now ev)) g ev) g).itemsOf ev.id).map (fun i => i.id))
      = (s.itemsOf ev.id).map (fun i => i.id) := by
  rw [replace_cleanup_itemsOf s g ev (updatedEvent g now ev) hgid1]
  rw [resetStep_itemsOf_ids, replaceEventStep_itemsOf]

/-- C4 amended: running Upsert twice with the identical remote record yields
the same final item rows (hence the same item set and checked states) as
running it once, and the once-run item names carry no duplicate, provided
the store is well formed: remote ids of events are unique, item ids are
unique, no stored item already points at the identity the counter would
assign, and the stored item names of the matched event carry no duplicate.
(Without the last condition idempotence fails; see the counterexample.) -/
theorem upsert_idempotent_on_items (s : Store) (g : GEvent) (now : DT)
    (hGids : (s.events.map Event.google_event_id).Nodup)
    (hItemIds : (s.items.map (fun i => i.id)).Nodup)
    (hfresh : ∀ it ∈ s.items, it.event_id ≠ s.nextId)
    (hNames : ∀ ev ∈ s.events, ((s.itemsOf ev.id).map (fun i => i.name)).Nodup) :
    ∃ E2, (upsertEvent s g now).1.events.find? (fun e => e.google_event_id == g.id)
        = some E2
      ∧ (upsertEvent (upsertEvent s g now).1 g now).1.itemsOf E2.id
          = (upsertEvent s g now).1.itemsOf E2.id
      ∧ (((upsertEvent s g now).1.itemsOf E2.id).map (fun i => i.name)).Nodup := by
  cases hf : s.events.find? (fun e => e.google_event_id == g.id) with
  | some ev =>
    have hev : ev ∈ s.events := List.mem_of_find?_eq_some hf
    have hgid1 : ev.google_event_id = g.id := by
      have := List.find?_some hf
      simpa using this
    have hsnd : (upsertEvent s g now).1 = upsertExisting s g now ev := by
      rw [upsertEvent_update s g now hf]
    have hfind2 := find2_update g now hGids hev hgid1
    have hups2 : upsertEvent (upsertExisting s g now ev) g now
        = (upsertExisting (upsertExisting s g now ev) g now (updatedEvent g now ev),
            false) := by
      unfold upsertEvent
      rw [hfind2]
    by_cases harch : ev.is_archived = true
    · -- archived event: both passes leave the items at the stored rows
      have hskip : syncItems (instanceCleanupStep (resetStep (replaceEventStep s ev
          (updatedEvent g now ev)) g ev) g) (updatedEvent g now ev) g.description
          = instanceCleanupStep (resetStep (replaceEventStep s ev
            (updatedEvent g now ev)) g ev) g :=
        syncItems_archived _ _ _ harch
      have hres : resetStep (replaceEventStep s ev (updatedEvent g now ev)) g ev
          = replaceEventStep s ev (updatedEvent g now ev) := by
        unfold resetStep
        rw [if_neg]
        simp [harch]
      have hR1target : (upsertExisting s g now ev).itemsOf ev.id = s.itemsOf ev.id := by
        rw [upsertExisting_itemsOf_eq, hskip]
        rw [replace_cleanup_itemsOf s g ev (updatedEvent g now ev) hgid1]
        rw [hres, replaceEventStep_itemsOf]
      refine ⟨updatedEvent g now ev, ?_, ?_, ?_⟩
      · rw [hsnd]
        exact hfind2
      · rw [hsnd, hups2]
        show (upsertExisting (upsertExisting s g now ev) g now
            (updatedEvent g now ev)).itemsOf (updatedEvent g now ev).id
          = (upsertExisting s g now ev).itemsOf (updatedEvent g now ev).id
        exact upsertExisting_itemsOf_noop _ _ _ _ hgid1 rfl rfl (Or.inl harch)
      · rw [hsnd]
        show (((upsertExisting s g now ev).itemsOf ev.id).map (fun i => i.name)).Nodup
        rw [hR1target]
        exact hNames ev hev
    · -- live event: after the first pass the stored names coincide with the
      -- extracted set, so the second reconciliation is the identity
      rw [Bool.not_eq_true] at harch
      have hT1NamesEv : (((instanceCleanupStep (resetStep (replaceEventStep s ev
          (updatedEvent g now ev)) g ev) g).itemsOf ev.id).map (fun i => i.name)).Nodup := by
        rw [hT1_names s g now ev hgid1]
        exact hNames ev hev
      have hT1IdsEv : (((instanceCleanupStep (resetStep (replaceEventStep s ev
          (updatedEvent g now ev)) g ev) g).itemsOf ev.id).map (fun i => i.id)).Nodup := by
        rw [hT1_ids s g now ev hgid1]
        exact hItemIds.sublist ((List.filter_sublist _).map _)
      have hsub1 : ∀ it ∈ (syncItems (instanceCleanupStep (resetStep (replaceEventStep
          s ev (updatedEvent g now ev)) g ev) g) (updatedEvent g now ev)
          g.description).itemsOf (updatedEvent g now ev).id,
          it.name ∈ parse_items_from_description g.description :=
        syncItems_names_sub harch hT1NamesEv
      have hsup1 : ∀ n ∈ parse_items_from_description g.description,
          n ∈ ((syncItems (instanceCleanupStep (resetStep (replaceEventStep
            s ev (updatedEvent g now ev)) g ev) g) (updatedEvent g now ev)
            g.description).itemsOf (updatedEvent g now ev).id).map (fun i => i.name) :=
        syncItems_names_sup harch hT1IdsEv
      have hnodup1 : (((syncItems (instanceCleanupStep (resetStep (replaceEventStep
          s ev (updatedEvent g now ev)) g ev) g) (updatedEvent g now ev)
          g.description).itemsOf (updatedEvent g now ev).id).map (fun i => i.name)).Nodup :=
        syncItems_names_nodup harch hT1NamesEv
      have hR1sub : ∀ it ∈ (upsertExisting s g now ev).itemsOf (updatedEvent g now ev).id,
          it.name ∈ parse_items_from_description g.description := by
        intro it hit
        rw [upsertExisting_itemsOf_eq] at hit
        exact hsub1 it hit
      have hR1sup : ∀ n ∈ parse_items_from_description g.description,
          n ∈ namesList (upsertExisting s g now ev) (updatedEvent g now ev) := by
        intro n hn
        unfold namesList
        rw [upsertExisting_itemsOf_eq]
        exact hsup1 n hn
      refine ⟨updatedEvent g now ev, ?_, ?_, ?_⟩
      · rw [hsnd]
        exact hfind2
      · rw [hsnd, hups2]
        show (upsertExisting (upsertExisting s g now ev) g now
            (updatedEvent g now ev)).itemsOf (updatedEvent g now ev).id
          = (upsertExisting s g now ev).itemsOf (updatedEvent g now ev).id
        exact upsertExisting_itemsOf_noop _ _ _ _ hgid1 rfl rfl
          (Or.inr ⟨hR1sub, hR1sup⟩)
      · rw [hsnd, upsertExisting_itemsOf_eq]
        exact hnodup1
  | none =>
    have hsnd : (upsertEvent s g now).1 = upsertNew s g now := by
      rw [upsertEvent_create s g now hf]
    have hT1empty : (insertEventStep (instanceCleanupStep s g)
        (newEvent (instanceCleanupStep s g) g now)).itemsOf
        (newEvent (instanceCleanupStep s g) g now).id = ([] : List Item) := by
      unfold Store.itemsOf
      rw [List.filter_eq_nil_iff]
      intro it hit
      have hit' : it ∈ (instanceCleanupStep s g).items := hit
      have hmem : it ∈ s.items := instanceCleanupStep_mem_items hit'
      simp only [beq_iff_eq]
      intro hcon
      apply hfresh it hmem
      rw [hcon]
      exact instanceCleanupStep_nextId s g
    have hfind2 : (upsertNew s g now).events.find? (fun e => e.google_event_id == g.id)
        = some (newEvent (instanceCleanupStep s g) g now) := by
      apply find?_eq_of_unique
      · rw [upsertNew_events]
        simp
      · show ((newEvent (instanceCleanupStep s g) g now).google_event_id == g.id) = true
        show (g.id == g.id) = true
        simp
      · intro e he hpe
        rw [upsertNew_events, List.mem_append] at he
        rcases he with hel | her
        · exfalso
          have hes : e ∈ s.events := instanceCleanupStep_mem_events hel
          exact List.find?_eq_none.mp hf e hes hpe
        · simpa using her
    have hups2 : upsertEvent (upsertNew s g now) g now
        = (upsertExisting (upsertNew s g now) g now
            (newEvent (instanceCleanupStep s g) g now), false) := by
      unfold upsertEvent
      rw [hfind2]
    have hT1NamesEv : (((insertEventStep (instanceCleanupStep s g)
        (newEvent (instanceCleanupStep s g) g now)).itemsOf
        (newEvent (instanceCleanupStep s g) g now).id).map (fun i => i.name)).Nodup := by
      rw [hT1empty]
      simp
    have hT1IdsEv : (((insertEventStep (instanceCleanupStep s g)
        (newEvent (instanceCleanupStep s g) g now)).itemsOf
        (newEvent (instanceCleanupStep s g) g now).id).map (fun i => i.id)).Nodup := by
      rw [hT1empty]
      simp
    have hnewarch : (newEvent (instanceCleanupStep s g) g now).is_archived = false := rfl
    have hsub1 : ∀ it ∈ (syncItems (insertEventStep (instanceCleanupStep s g)
        (newEvent (instanceCleanupStep s g) g now))
        (newEvent (instanceCleanupStep s g) g now) g.description).itemsOf
        (newEvent (instanceCleanupStep s g) g now).id,
        it.name ∈ parse_items_from_description g.description :=
      syncItems_names_sub hnewarch hT1NamesEv
    have hsup1 : ∀ n ∈ parse_items_from_description g.description,
        n ∈ ((syncItems (insertEventStep (instanceCleanupStep s g)
          (newEvent (instanceCleanupStep s g) g now))
          (newEvent (instanceCleanupStep s g) g now) g.description).itemsOf
          (newEvent (instanceCleanupStep s g) g now).id).map (fun i => i.name) :=
      syncItems_names_sup hnewarch hT1IdsEv
    have hnodup1 : (((syncItems (insertEventStep (instanceCleanupStep s g)
        (newEvent (instanceCleanupStep s g) g now))
        (newEvent (instanceCleanupStep s g) g now) g.description).itemsOf
        (newEvent (instanceCleanupStep s g) g now).id).map (fun i => i.name)).Nodup :=
      syncItems_names_nodup hnewarch hT1NamesEv
    have hR1sub : ∀ it ∈ (upsertNew s g now).itemsOf
        (newEvent (instanceCleanupStep s g) g now).id,
        it.name ∈ parse_items_from_description g.description := by
      intro it hit
      rw [upsertNew_itemsOf_eq] at hit
      exact hsub1 it hit
    have hR1sup : ∀ n ∈ parse_items_from_description g.description,
        n ∈ namesList (upsertNew s g now) (newEvent (instanceCleanupStep s g) g now) := by
      intro n hn
      unfold namesList
      rw [upsertNew_itemsOf_eq]
      exact hsup1 n hn
    refine ⟨newEvent (instanceCleanupStep s g) g now, ?_, ?_, ?_⟩
    · rw [hsnd]
      exact hfind2
    · rw [hsnd, hups2]
      show (upsertExisting (upsertNew s g now) g now
          (newEvent (instanceCleanupStep s g) g now)).itemsOf
          (newEvent (instanceCleanupStep s g) g now).id
        = (upsertNew s g now).itemsOf (newEvent (instanceCleanupStep s g) g now).id
      exact upsertExisting_itemsOf_noop _ _ _ _ rfl rfl rfl (Or.inr ⟨hR1sub, hR1sup⟩)
    · rw [hsnd, upsertNew_itemsOf_eq]
      exact hnodup1

def c4Event : Event :=
  { id := 0, google_event_id := "g", recurring_event_id := none, title := "T",
    description := none, start_time := 0, end_time := 60, last_synced := 0,
    is_archived := false }

def c4Store : Store :=
  { events := [c4Event],
    items := [{ id := 1, event_id := 0, name := "A", is_checked := false,
                source := "manual" },
              { id := 2, event_id := 0, name := "A", is_checked := false,
                source := "manual" }],
    attendees := [], confirmations := [], nextId := 3 }

def c4g : GEvent :=
  { id := "g", status := none, summary := some "T",
    description := some "Items:\n- B",
    start := 0, endt := 60, recurringEventId := none, attendees := [] }

set_option maxRecDepth 8000

/-- C4 counterexample: with two stored items both named "A" and a record
extracting the single name "B", the first Upsert deletes only the later of
the duplicates (the name-keyed dictionary holds one entry per name), leaving
names A, B; the second Upsert then deletes the surviving A, leaving only B.
The two passes end with different item rows, so Upsert is not idempotent on
items in general. -/
theorem upsert_not_idempotent_on_items :
    ¬((upsertEvent (upsertEvent c4Store c4g 0).1 c4g 0).1.itemsOf 0
        = (upsertEvent c4Store c4g 0).1.itemsOf 0) := by
  decide

def c4wEvent : Event :=
  { id := 0, google_event_id := "g", recurring_event_id := none, title := "T",
    description := none, start_time := 0, end_time := 60, last_synced := 0,
    is_archived := false }

def c4wStore : Store :=
  { events := [c4wEvent],
    items := [{ id := 1, event_id := 0, name := "A", is_checked := true,
                source := "manual" }],
    attendees := [], confirmations := [], nextId := 2 }

def c4wg : GEvent :=
  { id := "g", status := none, summary := some "T",
    description := some "Items:\n- A\n- B",
    start := 0, endt := 60, recurringEventId := none, attendees := [] }

theorem takeWhile_pred_append {p : Char → Bool} (a : List Char) (z : Char) (R : List Char)
    (ha : ∀ ch ∈ a, p ch = true) (hz : p z = false) :
    (a ++ z :: R).takeWhile p = a := by
  induction a with
  | nil => simp [List.takeWhile_cons, hz]
  | cons x t ih =>
    rw [List.cons_append, List.takeWhile_cons, if_pos (ha x (by simp))]
    rw [ih (fun ch h => ha ch (by simp [h]))]

theorem takeWhile_all {p : Char → Bool} (a : List Char)
    (ha : ∀ ch ∈ a, p ch = true) : a.takeWhile p = a := by
  induction a with
  | nil => rfl
  | cons x t ih =>
    rw [List.takeWhile_cons, if_pos (ha x (by simp))]
    rw [ih (fun ch h => ha ch (by simp [h]))]

theorem dropWhile_eq_self_of_head {p : Char → Bool} : ∀ {s : List Char},
    (∀ c, s.head? = some c → p c = false) → s.dropWhile p = s
  | [], _ => rfl
  | c :: t, h => by
    rw [List.dropWhile_cons, if_neg]
    simp [h c rfl]

theorem pyStrip_eq_self {s : List Char}
    (h1 : ∀ c, s.head? = some c → isWS c = false)
    (h2 : ∀ c, s.getLast? = some c → isWS c = false) :
    pyStrip s = s := by
  unfold pyStrip
  rw [dropWhile_eq_self_of_head h1]
  rw [dropWhile_eq_self_of_head (fun c hc => h2 c (by rw [List.head?_reverse] at hc; exact hc))]
  rw [List.reverse_reverse]

theorem pyStrip_append_nl (x : Char) (t : List Char) (hx : isWS x = false)
    (h2 : ∀ c, (x :: t).getLast? = some c → isWS c = false) :
    pyStrip ((x :: t) ++ ['\n']) = x :: t := by
  unfold pyStrip
  rw [List.cons_append, List.dropWhile_cons, if_neg (by simp [hx])]
  rw [show ((x :: (t ++ ['\n'])) : List Char).reverse = '\n' :: (x :: t).reverse by simp]
  rw [List.dropWhile_cons, if_pos (by decide)]
  rw [dropWhile_eq_self_of_head
    (fun c hc => h2 c (by rw [List.head?_reverse] at hc; exact hc))]
  rw [List.reverse_reverse]

theorem matchCI_none_crossing (p : List Char) (hp : ∃ q ∈ p, q.toLower = ':')
    (hpn : ∀ q ∈ p, q.toLower ≠ '\n') :
    ∀ (c2 T : List Char), (∀ ch ∈ c2, ch.toLower ≠ ':') →
      matchCI p (c2 ++ '\n' :: T) = none := by
  induction p with
  | nil => obtain ⟨q, hq, -⟩ := hp; simp at hq
  | cons q p' ih =>
    intro c2 T hc
    cases c2 with
    | nil =>
      simp only [List.nil_append, matchCI]
      rw [if_neg]
      intro hcon
      apply hpn q (by simp)
      rw [hcon]
      decide
    | cons x c2' =>
      simp only [List.cons_append, matchCI]
      by_cases hqx : q.toLower = x.toLower
      · rw [if_pos hqx]
        have hp' : ∃ q0 ∈ p', q0.toLower = ':' := by
          obtain ⟨q0, hq0, hq0c⟩ := hp
          rcases List.mem_cons.mp hq0 with heq | hm
          · exfalso
            apply hc x (by simp)
            rw [← hqx, ← heq]
            exact hq0c
          · exact ⟨q0, hm, hq0c⟩
        exact ih hp' (fun q1 h1 => hpn q1 (by simp [h1])) c2' T
          (fun ch h => hc ch (by simp [h]))
      · rw [if_neg hqx]

theorem matchCI_none_of_no_colon (p : List Char) (hp : ∃ q ∈ p, q.toLower = ':') :
    ∀ (S : List Char), (∀ ch ∈ S, ch.toLower ≠ ':') → matchCI p S = none := by
  induction p with
  | nil => obtain ⟨q, hq, -⟩ := hp; simp at hq
  | cons q p' ih =>
    intro S hS
    cases S with
    | nil => rfl
    | cons x S' =>
      simp only [matchCI]
      by_cases hqx : q.toLower = x.toLower
      · rw [if_pos hqx]
        have hp' : ∃ q0 ∈ p', q0.toLower = ':' := by
          obtain ⟨q0, hq0, hq0c⟩ := hp
          rcases List.mem_cons.mp hq0 with heq | hm
          · exfalso
            apply hS x (by simp)
            rw [← hqx, ← heq]
            exact hq0c
          · exact ⟨q0, hm, hq0c⟩
        exact ih hp' S' (fun ch h => hS ch (by simp [h]))
      · rw [if_neg hqx]

theorem matchCI_nl_transport (p : List Char) (hpn : ∀ q ∈ p, q.toLower ≠ '\n') :
    ∀ (S X : List Char), matchCI p (S ++ ['\n']) = none →
      matchCI p (S ++ '\n' :: X) = none := by
  induction p with
  | nil =>
    intro S X h
    simp [matchCI] at h
  | cons q p' ih =>
    intro S X h
    cases S with
    | nil =>
      simp only [List.nil_append, matchCI]
      rw [if_neg]
      intro hcon
      apply hpn q (by simp)
      rw [hcon]
      decide
    | cons s0 S' =>
      simp only [List.cons_append, matchCI] at h ⊢
      by_cases hq : q.toLower = s0.toLower
      · rw [if_pos hq] at h ⊢
        exact ih (fun q1 h1 => hpn q1 (by simp [h1])) S' X h
      · rw [if_neg hq]

theorem headerAt_none_crossing (c2 T : List Char) (hc : ∀ ch ∈ c2, ch.toLower ≠ ':') :
    headerAt (c2 ++ '\n' :: T) = none := by
  unfold headerAt
  rw [matchCI_none_crossing "items:".data (by decide) (by decide) c2 T hc]
  rw [matchCI_none_crossing "checklist:".data (by decide) (by decide) c2 T hc]
  rw [matchCI_none_crossing "things to bring:".data (by decide) (by decide) c2 T hc]
  rw [matchCI_none_crossing "required:".data (by decide) (by decide) c2 T hc]
  rw [matchCI_none_crossing "bring:".data (by decide) (by decide) c2 T hc]
  rw [matchCI_none_crossing "pack:".data (by decide) (by decide) c2 T hc]

theorem headerAt_none_of_no_colon (S : List Char) (hS : ∀ ch ∈ S, ch.toLower ≠ ':') :
    headerAt S = none := by
  unfold headerAt
  rw [matchCI_none_of_no_colon "items:".data (by decide) S hS]
  rw [matchCI_none_of_no_colon "checklist:".data (by decide) S hS]
  rw [matchCI_none_of_no_colon "things to bring:".data (by decide) S hS]
  rw [matchCI_none_of_no_colon "required:".data (by decide) S hS]
  rw [matchCI_none_of_no_colon "bring:".data (by decide) S hS]
  rw [matchCI_none_of_no_colon "pack:".data (by decide) S hS]

theorem headerAt_nl_transport (S X : List Char)
    (h : headerAt (S ++ ['\n']) = none) : headerAt (S ++ '\n' :: X) = none := by
  unfold headerAt at h ⊢
  cases h1 : matchCI "items:".data (S ++ ['\n']) with
  | some u => rw [h1] at h; simp at h
  | none =>
  rw [h1] at h
  rw [matchCI_nl_transport "items:".data (by decide) S X h1]
  cases h2 : matchCI "checklist:".data (S ++ ['\n']) with
  | some u => rw [h2] at h; simp at h
  | none =>
  rw [h2] at h
  rw [matchCI_nl_transport "checklist:".data (by decide) S X h2]
  cases h3 : matchCI "things to bring:".data (S ++ ['\n']) with
  | some u => rw [h3] at h; simp at h
  | none =>
  rw [h3] at h
  rw [matchCI_nl_transport "things to bring:".data (by decide) S X h3]
  cases h4 : matchCI "required:".data (S ++ ['\n']) with
  | some u => rw [h4] at h; simp at h
  | none =>
  rw [h4] at h
  rw [matchCI_nl_transport "required:".data (by decide) S X h4]
  cases h5 : matchCI "bring:".data (S ++ ['\n']) with
  | some u => rw [h5] at h; simp at h
  | none =>
  rw [h5] at h
  rw [matchCI_nl_transport "bring:".data (by decide) S X h5]
  exact matchCI_nl_transport "pack:".data (by decide) S X h

theorem sectionMatchAt_none_of_headerAt {s : List Char} (h : headerAt s = none) :
    sectionMatchAt s = none := by
  unfold sectionMatchAt
  rw [h]

theorem itemsMatchAt_none_of_matchCI_none {s : List Char}
    (h : matchCI "items:".data s = none) : itemsMatchAt s = none := by
  unfold itemsMatchAt
  rw [h]

theorem itemsMatchAt_none_head {x : Char} (t : List Char) (hx : x.toLower ≠ 'i') :
    itemsMatchAt (x :: t) = none := by
  apply itemsMatchAt_none_of_matchCI_none
  show matchCI ('i' :: "tems:".data) (x :: t) = none
  simp only [matchCI]
  rw [if_neg]
  intro hc
  apply hx
  rw [← hc]
  decide

theorem itemsMatchAt_none_second (x : Char) {y : Char} (t : List Char)
    (hy : y.toLower ≠ 't') : itemsMatchAt (x :: y :: t) = none := by
  apply itemsMatchAt_none_of_matchCI_none
  show matchCI ('i' :: 't' :: "ems:".data) (x :: y :: t) = none
  simp only [matchCI]
  by_cases h1 : Char.toLower 'i' = x.toLower
  · rw [if_pos h1, if_neg]
    intro hc
    apply hy
    rw [← hc]
    decide
  · rw [if_neg h1]

theorem subItemsAllF_nil (fuel : Nat) : subItemsAllF fuel [] = [] := by
  cases fuel <;> rfl

theorem subItemsAllF_cons_noMatch {c : Char} {t : List Char} {fuel : Nat}
    (h : itemsMatchAt (c :: t) = none) :
    subItemsAllF (fuel + 1) (c :: t) = c :: subItemsAllF fuel t := by
  simp only [subItemsAllF, h]

theorem subItemsAllF_cons_match {c : Char} {t r : List Char} {fuel : Nat}
    (h : itemsMatchAt (c :: t) = some r) :
    subItemsAllF (fuel + 1) (c :: t) = subItemsAllF fuel r := by
  simp only [subItemsAllF, h]

theorem subItemsAllF_fuel_inv : ∀ (f1 f2 : Nat) (s : List Char),
    s.length ≤ f1 → s.length ≤ f2 → subItemsAllF f1 s = subItemsAllF f2 s := by
  intro f1
  induction f1 with
  | zero =>
    intro f2 s h1 _
    have hs : s = [] := List.length_eq_zero.mp (Nat.le_zero.mp h1)
    subst hs
    rw [subItemsAllF_nil, subItemsAllF_nil]
  | succ n ih =>
    intro f2 s h1 h2
    cases s with
    | nil => rw [subItemsAllF_nil, subItemsAllF_nil]
    | cons c t =>
      cases f2 with
      | zero => simp at h2
      | succ m =>
        cases hm : itemsMatchAt (c :: t) with
        | some r =>
          rw [subItemsAllF_cons_match hm, subItemsAllF_cons_match hm]
          have hr := itemsMatchAt_length hm
          simp only [List.length_cons] at h1 h2 hr
          exact ih m r (by omega) (by omega)
        | none =>
          rw [subItemsAllF_cons_noMatch hm, subItemsAllF_cons_noMatch hm]
          simp only [List.length_cons] at h1 h2
          rw [ih m t (by omega) (by omega)]

theorem afterBody_append_nl (a R : List Char) (han : ∀ ch ∈ a, ch ≠ '\n') :
    afterBody (a ++ '\n' :: R) = R := by
  simp only [afterBody]
  rw [takeWhile_pred_append a '\n' R (by intro ch h; simp [han ch h]) (by simp)]
  rw [List.drop_left]
  simp

theorem afterBody_no_nl (a : List Char) (han : ∀ ch ∈ a, ch ≠ '\n') :
    afterBody a = [] := by
  simp only [afterBody]
  rw [takeWhile_all a (by intro ch h; simp [han ch h])]
  rw [List.drop_length]
  simp

theorem wsStarBody_head (a0 : Char) (t : List Char) (h : isWS a0 = false) :
    wsStarBody (a0 :: t) = some (afterBody (a0 :: t)) := by
  simp only [wsStarBody, h]
  simp

theorem repMatch_head (a0 : Char) (t : List Char) (h : isWS a0 = false) :
    repMatch ('-' :: ' ' :: a0 :: t) = some (afterBody (a0 :: t)) := by
  simp only [repMatch]
  rw [if_pos (by decide)]
  exact wsStarBody_head a0 t h

theorem bulletStarF_stop {s : List Char} (h : repMatch s = none) (fuel : Nat) :
    bulletStarF fuel s = s := by
  cases fuel with
  | zero => rfl
  | succ n => simp only [bulletStarF, h]

theorem bulletStarF_step {s r : List Char} (h : repMatch s = some r) (fuel : Nat) :
    bulletStarF (fuel + 1) s = bulletStarF fuel r := by
  simp only [bulletStarF, h]

theorem ws_false_ne_nl {a : List Char} (haw : ∀ ch ∈ a, isWS ch = false) :
    ∀ ch ∈ a, ch ≠ '\n' := by
  intro ch h hc
  have := haw ch h
  rw [hc] at this
  exact absurd this (by decide)

theorem itemsMatchAt_section (a R : List Char) (ha : a ≠ [])
    (haw : ∀ ch ∈ a, isWS ch = false) (hrep : repMatch R = none) :
    itemsMatchAt ("Items:\n- ".data ++ (a ++ '\n' :: R)) = some R := by
  unfold itemsMatchAt
  have h1 : matchCI "items:".data ("Items:\n- ".data ++ (a ++ '\n' :: R))
      = some ('\n' :: '-' :: ' ' :: (a ++ '\n' :: R)) := rfl
  simp only [h1]
  have h2 : wsNl ('\n' :: '-' :: ' ' :: (a ++ '\n' :: R))
      = some ('-' :: ' ' :: (a ++ '\n' :: R)) := rfl
  simp only [h2]
  have hrm : repMatch ('-' :: ' ' :: (a ++ '\n' :: R)) = some R := by
    cases a with
    | nil => exact absurd rfl ha
    | cons a0 a' =>
      rw [List.cons_append, repMatch_head a0 (a' ++ '\n' :: R) (haw a0 (by simp))]
      rw [show (a0 :: (a' ++ '\n' :: R)) = ((a0 :: a') ++ '\n' :: R) from rfl]
      rw [afterBody_append_nl (a0 :: a') R (ws_false_ne_nl haw)]
  have hlen : ('-' :: ' ' :: (a ++ '\n' :: R)).length
      = ((a ++ '\n' :: R).length + 1) + 1 := by
    simp
  rw [hlen, bulletStarF_step hrm, bulletStarF_stop hrep]

theorem itemsMatchAt_section_end (b : List Char) (hb : b ≠ [])
    (hbw : ∀ ch ∈ b, isWS ch = false) :
    itemsMatchAt ("Items:\n- ".data ++ b) = some [] := by
  unfold itemsMatchAt
  have h1 : matchCI "items:".data ("Items:\n- ".data ++ b)
      = some ('\n' :: '-' :: ' ' :: b) := rfl
  simp only [h1]
  have h2 : wsNl ('\n' :: '-' :: ' ' :: b) = some ('-' :: ' ' :: b) := rfl
  simp only [h2]
  have hrm : repMatch ('-' :: ' ' :: b) = some [] := by
    cases b with
    | nil => exact absurd rfl hb
    | cons b0 b' =>
      rw [repMatch_head b0 b' (hbw b0 (by simp))]
      rw [afterBody_no_nl (b0 :: b') (ws_false_ne_nl hbw)]
  have hlen : ('-' :: ' ' :: b).length = (b.length + 1) + 1 := by
    simp
  rw [hlen, bulletStarF_step hrm, bulletStarF_stop (by rfl)]

def prefixSafe : List Char → Bool
  | [] => true
  | x :: t =>
    ((x.toLower != 'i') || (match t with
      | y :: _ => y.toLower != 't'
      | [] => false)) && prefixSafe t

theorem scanPre (P T : List Char) (fuel : Nat) :
    prefixSafe P = true →
      subItemsAllF (P.length + fuel) (P ++ T) = P ++ subItemsAllF fuel T := by
  induction P with
  | nil =>
    intro _
    simp
  | cons x P' ih =>
    intro hP
    simp only [prefixSafe, Bool.and_eq_true, Bool.or_eq_true] at hP
    have hm : itemsMatchAt (x :: (P' ++ T)) = none := by
      rcases hP.1 with hx | hy
      · exact itemsMatchAt_none_head _ (by simpa using hx)
      · cases P' with
        | nil => simp at hy
        | cons y rest =>
          exact itemsMatchAt_none_second x (rest ++ T) (by simpa using hy)
    have hlen : (x :: P').length + fuel = (P'.length + fuel) + 1 := by
      simp only [List.length_cons]
      omega
    rw [List.cons_append, hlen, subItemsAllF_cons_noMatch hm, ih hP.2]
    rfl

theorem scanCleanName (c T : List Char) (fuel : Nat) :
    (∀ ch ∈ c, ch.toLower ≠ ':') →
      subItemsAllF ((c.length + 1) + fuel) (c ++ '\n' :: T)
        = c ++ '\n' :: subItemsAllF fuel T := by
  induction c with
  | nil =>
    intro _
    have hm : itemsMatchAt ('\n' :: T) = none :=
      itemsMatchAt_none_head _ (by decide)
    have hlen : (([] : List Char).length + 1) + fuel = fuel + 1 := by
      simp
      omega
    rw [List.nil_append, hlen, subItemsAllF_cons_noMatch hm]
    rfl
  | cons x c' ih =>
    intro hc
    have hm : itemsMatchAt (x :: (c' ++ '\n' :: T)) = none := by
      apply itemsMatchAt_none_of_matchCI_none
      exact matchCI_none_crossing _ (by decide) (by decide) (x :: c') T hc
    have hlen : ((x :: c').length + 1) + fuel = ((c'.length + 1) + fuel) + 1 := by
      simp only [List.length_cons]
      omega
    rw [List.cons_append, hlen, subItemsAllF_cons_noMatch hm,
      ih (fun ch h => hc ch (by simp [h]))]
    rfl

/-- Concrete scaffolding for section-stripping families: a synonym-header
section, the canonical Items header with one bullet, and an interior line. -/
def chkHdr : List Char := ['C', 'h', 'e', 'c', 'k', 'l', 'i', 's', 't', ':', '\n', '-', ' ']

def itmHdr : List Char := ['I', 't', 'e', 'm', 's', ':', '\n', '-', ' ']

def keepMid : List Char := ['K', 'e', 'e', 'p', '\n']

/-- A description with a synonym-header section holding name c, an Items
section holding name a, an interior line, and a second Items section holding
name b. -/
def c8doc (a b c : List Char) : List Char :=
  chkHdr ++ (c ++ '\n' :: (itmHdr ++ (a ++ '\n' :: (keepMid ++ (itmHdr ++ b)))))

theorem upsert_idempotent_on_items_witness :
    ((c4wStore.events.map Event.google_event_id).Nodup
      ∧ (c4wStore.items.map (fun i => i.id)).Nodup
      ∧ (∀ it ∈ c4wStore.items, it.event_id ≠ c4wStore.nextId)
      ∧ (∀ ev ∈ c4wStore.events,
          ((c4wStore.itemsOf ev.id).map (fun i => i.name)).Nodup))
    ∧ ∃ E2, (upsertEvent c4wStore c4wg 0).1.events.find?
          (fun e => e.google_event_id == c4wg.id) = some E2
        ∧ (upsertEvent (upsertEvent c4wStore c4wg 0).1 c4wg 0).1.itemsOf E2.id
            = (upsertEvent c4wStore c4wg 0).1.itemsOf E2.id
        ∧ (((upsertEvent c4wStore c4wg 0).1.itemsOf E2.id).map (fun i => i.name)).Nodup :=
  ⟨⟨by decide, by decide, by decide, by decide⟩,
    upsert_idempotent_on_items c4wStore c4wg 0 (by decide) (by decide) (by decide)
      (by decide)⟩

theorem findNext_cons_none {c : Char} {t : List Char}
    (h : sectionMatchAt (c :: t) = none) :
    findNext (c :: t) = (findNext t).map (fun pr => (c :: pr.1, pr.2)) := by
  simp only [findNext, h]
  cases findNext t with
  | none => rfl
  | some pr => cases pr; rfl

theorem findNext_cons_some {c : Char} {t r : List Char}
    (h : sectionMatchAt (c :: t) = some r) :
    findNext (c :: t) = some ([], r) := by
  simp only [findNext, h]

theorem findNext_eq_none (s : List Char)
    (h : ∀ S, S <:+ s → S ≠ [] → sectionMatchAt S = none) :
    findNext s = none := by
  induction s with
  | nil => rfl
  | cons c t ih =>
    have hm := h (c :: t) (List.suffix_refl _) (by simp)
    rw [findNext_cons_none hm,
      ih (fun S hs hne => h S (hs.trans (List.suffix_cons c t)) hne)]
    rfl

theorem findNext_append_none (S X : List Char)
    (hS : ∀ S2, S2 <:+ S → S2 ≠ [] → sectionMatchAt (S2 ++ X) = none) :
    findNext (S ++ X) = (findNext X).map (fun pr => (S ++ pr.1, pr.2)) := by
  induction S with
  | nil =>
    simp only [List.nil_append]
    cases findNext X with
    | none => rfl
    | some pr => cases pr; rfl
  | cons c S' ih =>
    have hm : sectionMatchAt (c :: (S' ++ X)) = none :=
      hS (c :: S') (List.suffix_refl _) (by simp)
    rw [List.cons_append, findNext_cons_none hm,
      ih (fun S2 hs hne => hS S2 (hs.trans (List.suffix_cons c S')) hne)]
    cases findNext X with
    | none => rfl
    | some pr => cases pr; rfl

theorem headerAt_nl (t : List Char) : headerAt ('\n' :: t) = none := rfl

theorem sectionMatchAt_items_block (bl : List Char) (hbl : bl.head? = some '-') :
    sectionMatchAt ('I' :: ('t' :: 'e' :: 'm' :: 's' :: ':' :: '\n' :: bl)) = some bl := by
  unfold sectionMatchAt
  have h1 : headerAt ('I' :: 't' :: 'e' :: 'm' :: 's' :: ':' :: '\n' :: bl)
      = some ('\n' :: bl) := rfl
  simp only [h1]
  cases bl with
  | nil => simp at hbl
  | cons b0 t =>
    have hb0 : b0 = '-' := by simpa using hbl
    subst hb0
    rfl

theorem sectionsFromF_no_match (s : List Char) (h : findNext s = none)
    (hg : upToGeneric s = s) (fuel : Nat) : sectionsFromF fuel s = [s] := by
  cases fuel with
  | zero => simp [sectionsFromF, hg]
  | succ n => simp [sectionsFromF, h, hg]

theorem genericHeaderAt_no_colon (s : List Char) (h : ∀ ch ∈ s, ch ≠ ':') :
    genericHeaderAt s = false := by
  unfold genericHeaderAt
  split
  · rename_i cU tT
    have hbeq : ((tT.drop (tT.takeWhile isLowerAscii).length).head? == some ':') = false := by
      rcases hk : (tT.drop (tT.takeWhile isLowerAscii).length).head? with _ | ch
      · rfl
      · have hcht : ch ∈ tT := by
          apply List.drop_subset (tT.takeWhile isLowerAscii).length tT
          cases hd : tT.drop (tT.takeWhile isLowerAscii).length with
          | nil => rw [hd] at hk; simp at hk
          | cons z zs =>
            rw [hd] at hk
            simp only [List.head?_cons, Option.some.injEq] at hk
            rw [hk]
            simp
        have hch : ch ≠ ':' := h ch (by simp [hcht])
        simp [hch]
    show (isUpperAscii cU && (!(List.takeWhile isLowerAscii tT).isEmpty
      && ((tT.drop (List.takeWhile isLowerAscii tT).length).head? == some ':'))) = false
    rw [hbeq]
    simp
  · rfl

theorem upToGeneric_no_colon (s : List Char) (h : ∀ ch ∈ s, ch ≠ ':') :
    upToGeneric s = s := by
  induction s with
  | nil => rfl
  | cons c t ih =>
    unfold upToGeneric
    rw [if_neg, ih (fun ch hm => h ch (by simp [hm]))]
    rw [genericHeaderAt_no_colon (c :: t) h]
    simp

theorem splitLines_nl (t : List Char) : splitLines ('\n' :: t) = [] :: splitLines t := rfl

theorem splitLines_cons_ne (c : Char) (t : List Char) (h : c ≠ '\n') :
    splitLines (c :: t)
      = match splitLines t with
        | l :: ls => (c :: l) :: ls
        | [] => [[c]] := by
  conv_lhs => unfold splitLines
  rw [if_neg h]

theorem splitLines_no_nl (x : List Char) (hx : ∀ ch ∈ x, ch ≠ '\n') :
    splitLines x = [x] := by
  induction x with
  | nil => rfl
  | cons c t ih =>
    rw [splitLines_cons_ne c t (hx c (by simp)), ih (fun ch hm => hx ch (by simp [hm]))]

theorem splitLines_append_nl (x R : List Char) (hx : ∀ ch ∈ x, ch ≠ '\n') :
    splitLines (x ++ '\n' :: R) = x :: splitLines R := by
  induction x with
  | nil => exact splitLines_nl R
  | cons c t ih =>
    rw [List.cons_append, splitLines_cons_ne c _ (hx c (by simp)),
      ih (fun ch hm => hx ch (by simp [hm]))]

theorem intercalate_cons_cons (sep x y : List Char) (t : List (List Char)) :
    List.intercalate sep (x :: y :: t) = x ++ (sep ++ List.intercalate sep (y :: t)) := by
  simp [List.intercalate, List.intersperse]

theorem intercalate_single (sep x : List Char) : List.intercalate sep [x] = x := by
  simp [List.intercalate]

theorem intercalate_mem_chars (sep : List Char) (L : List (List Char)) (ch : Char) :
    ch ∈ List.intercalate sep L → ch ∈ sep ∨ ∃ l ∈ L, ch ∈ l := by
  induction L with
  | nil =>
    intro h
    simp [List.intercalate] at h
  | cons x t ih =>
    intro h
    cases t with
    | nil =>
      rw [intercalate_single] at h
      exact Or.inr ⟨x, by simp, h⟩
    | cons y t' =>
      rw [intercalate_cons_cons] at h
      rcases List.mem_append.mp h with h1 | h2
      · exact Or.inr ⟨x, by simp, h1⟩
      · rcases List.mem_append.mp h2 with h3 | h4
        · exact Or.inl h3
        · rcases ih h4 with h5 | ⟨l, hl, hchl⟩
          · exact Or.inl h5
          · exact Or.inr ⟨l, by simp [hl], hchl⟩

/-- Cleanliness of an item name for the round trip: non-empty, no colon (up
to lower-casing) and no newline anywhere, no leading or trailing whitespace. -/
def cleanName (n : String) : Bool :=
  !n.data.isEmpty
    && n.data.all (fun ch => ch.toLower != ':' && ch != '\n')
    && !isWS (n.data.headD 'x') && !isWS (n.data.getLastD 'x')

theorem cleanName_spec {n : String} (h : cleanName n = true) :
    n.data ≠ [] ∧ (∀ ch ∈ n.data, ch.toLower ≠ ':' ∧ ch ≠ '\n')
      ∧ isWS (n.data.headD 'x') = false ∧ isWS (n.data.getLastD 'x') = false := by
  unfold cleanName at h
  simp only [Bool.and_eq_true, List.all_eq_true, Bool.not_eq_true', bne_iff_ne,
    List.isEmpty_eq_false_iff_exists_mem] at h
  obtain ⟨⟨⟨h1, h2⟩, h3⟩, h4⟩ := h
  refine ⟨?_, ?_, h3, h4⟩
  · obtain ⟨x, hx⟩ := h1
    intro hcon
    rw [hcon] at hx
    simp at hx
  · intro ch hm
    exact ⟨(h2 ch hm).1, (h2 ch hm).2⟩

theorem head?_of_headD {l : List Char} {d x : Char} (hne : l ≠ [])
    (h : l.headD d = x) : l.head? = some x := by
  cases l with
  | nil => exact absurd rfl hne
  | cons a t =>
    simp only [List.headD_cons] at h
    rw [h]
    rfl

theorem pyStrip_name (nd : List Char) (hne : nd ≠ [])
    (hh : isWS (nd.headD 'x') = false) (hl : isWS (nd.getLastD 'x') = false) :
    pyStrip nd = nd := by
  apply pyStrip_eq_self
  · intro ch hch
    cases nd with
    | nil => exact absurd rfl hne
    | cons a t =>
      simp only [List.head?_cons, Option.some.injEq] at hch
      rw [← hch]
      simpa using hh
  · intro ch hch
    rw [List.getLastD_eq_getLast?] at hl
    rw [hch] at hl
    simpa using hl

theorem getLast?_render (n : String) (hne : n.data ≠ []) :
    (renderLine n).getLast? = n.data.getLast? := by
  unfold renderLine
  rw [List.getLast?_cons_cons]
  cases hd : n.data with
  | nil => exact absurd hd hne
  | cons a t => rw [List.getLast?_cons_cons]

theorem pyStrip_render (n : String) (hc : cleanName n = true) :
    pyStrip (renderLine n) = renderLine n := by
  obtain ⟨h1, -, -, h4⟩ := cleanName_spec hc
  apply pyStrip_eq_self
  · intro ch hch
    simp only [renderLine, List.head?_cons, Option.some.injEq] at hch
    rw [← hch]
    decide
  · intro ch hch
    rw [getLast?_render n h1] at hch
    rw [List.getLastD_eq_getLast?, hch] at h4
    simpa using h4

theorem bulletGroupA_eval (t : List Char)
    (hw : (t.takeWhile isWS).isEmpty = false)
    (hr : (t.drop (t.takeWhile isWS).length).isEmpty = false) :
    bulletGroupA ('-' :: t) = some (t.drop (t.takeWhile isWS).length) := by
  simp only [bulletGroupA]
  rw [if_pos (by decide)]
  rw [hw, hr]
  simp

theorem parseBulletLine_render (n : String) (hc : cleanName n = true) :
    parseBulletLine (renderLine n) = some n.data := by
  obtain ⟨h1, -, h3, -⟩ := cleanName_spec hc
  have htw : List.takeWhile isWS (' ' :: n.data) = [' '] := by
    cases hd : n.data with
    | nil => exact absurd hd h1
    | cons a t =>
      have ha : isWS a = false := by
        rw [hd] at h3
        simpa using h3
      rw [List.takeWhile_cons, if_pos (by decide), List.takeWhile_cons,
        if_neg (by simp [ha])]
  have hdr : (' ' :: n.data).drop ((' ' :: n.data).takeWhile isWS).length = n.data := by
    rw [htw]
    rfl
  have hnde : n.data.isEmpty = false := by
    cases hd : n.data with
    | nil => exact absurd hd h1
    | cons a t => rfl
  have hga : bulletGroupA (renderLine n) = some n.data := by
    show bulletGroupA ('-' :: (' ' :: n.data)) = some n.data
    rw [bulletGroupA_eval (' ' :: n.data) (by rw [htw]; rfl) (by rw [hdr]; exact hnde)]
    rw [hdr]
  unfold parseBulletLine
  rw [hga]

theorem sectionItems_single (n : String) (hc : cleanName n = true) :
    sectionItems (renderLine n) = [n.data] := by
  have hnl : ∀ ch ∈ renderLine n, ch ≠ '\n' := by
    intro ch hm
    simp only [renderLine, List.mem_cons] at hm
    rcases hm with rfl | rfl | hm
    · decide
    · decide
    · exact ((cleanName_spec hc).2.1 ch hm).2
  obtain ⟨h1, -, h3, h4⟩ := cleanName_spec hc
  unfold sectionItems
  rw [splitLines_no_nl (renderLine n) hnl]
  rw [List.filterMap_cons]
  simp only [pyStrip_render n hc, parseBulletLine_render n hc]
  have hre : (renderLine n).isEmpty = false := rfl
  have hnde : n.data.isEmpty = false := by
    cases hd : n.data with
    | nil => exact absurd hd h1
    | cons a t => rfl
  simp only [hre, hnde, Bool.false_eq_true, if_false]
  rw [pyStrip_name n.data h1 h3 h4]
  rfl

theorem sectionItems_append_line (x R : List Char) (hx : ∀ ch ∈ x, ch ≠ '\n') :
    sectionItems (x ++ '\n' :: R) = sectionItems x ++ sectionItems R := by
  unfold sectionItems
  rw [splitLines_append_nl x R hx]
  rw [splitLines_no_nl x hx]
  rw [show x :: splitLines R = [x] ++ splitLines R from rfl]
  rw [List.filterMap_append]

theorem renderLine_no_nl (n : String) (hc : cleanName n = true) :
    ∀ ch ∈ renderLine n, ch ≠ '\n' := by
  intro ch hm
  simp only [renderLine, List.mem_cons] at hm
  rcases hm with rfl | rfl | hm
  · decide
  · decide
  · exact ((cleanName_spec hc).2.1 ch hm).2

theorem sectionItems_bullets (L : List String) :
    (∀ n ∈ L, cleanName n = true) → L ≠ [] →
      sectionItems (List.intercalate ['\n'] (L.map renderLine)) = L.map String.data := by
  induction L with
  | nil => intro _ h; exact absurd rfl h
  | cons n0 L' ih =>
    intro hn _
    cases L' with
    | nil =>
      rw [show (([n0] : List String).map renderLine) = [renderLine n0] from rfl]
      rw [intercalate_single]
      rw [sectionItems_single n0 (hn n0 (by simp))]
      rfl
    | cons n1 L'' =>
      rw [show List.map renderLine (n0 :: n1 :: L'')
        = renderLine n0 :: renderLine n1 :: List.map renderLine L'' from rfl]
      rw [intercalate_cons_cons]
      rw [show (['\n'] ++ List.intercalate ['\n'] (renderLine n1 :: List.map renderLine L''))
        = '\n' :: List.intercalate ['\n'] (renderLine n1 :: List.map renderLine L'') from rfl]
      rw [sectionItems_append_line _ _ (renderLine_no_nl n0 (hn n0 (by simp)))]
      rw [sectionItems_single n0 (hn n0 (by simp))]
      rw [show (renderLine n1 :: List.map renderLine L'')
        = List.map renderLine (n1 :: L'') from rfl]
      rw [ih (fun n hm => hn n (by simp [hm])) (by simp)]
      rfl

theorem parse_some_cons (c : Char) (t : List Char) :
    parse_items_from_description (some (String.mk (c :: t))) = parseItemsCore (c :: t) := by
  show (if (String.mk (c :: t)).isEmpty then [] else parseItemsCore (String.mk (c :: t)).data)
    = parseItemsCore (c :: t)
  have hni : (String.mk (c :: t)).isEmpty = false := by
    simp [String.isEmpty]
    intro hcon
    have hp1 : 0 < c.utf8Size := Char.utf8Size_pos c
    have hp2 : (0 : String.Pos) = ⟨0⟩ := rfl
    rw [hp2, String.Pos.ext_iff] at hcon
    simp at hcon
    omega
  rw [hni]
  simp

/-- The cleaned base text is free of section-header matches at every suffix:
with this, the only header the extractor can see in the rendered text is the
freshly appended Items header.  (A header pattern never crosses a newline, so
checking each suffix against a single-newline continuation suffices.) -/
def headerFree (s : List Char) : Bool :=
  s.tails.all (fun t2 => (headerAt (t2 ++ ['\n'])).isNone)

/-- C7 amended: extraction after rendering recovers exactly the rendered name
list (even the order), provided every name is clean (non-empty, no colon or
newline, no edge whitespace) and the cleaned base description is non-empty
and free of section-header matches at every suffix.  The spec's weaker
premise — the base merely lacks an "Items:" section — is insufficient: a
synonym header (for example "Bring:") survives render and is picked up by
extraction; see the counterexample. -/
theorem roundtrip_exact (L : List String) (D : String)
    (hL : L ≠ [])
    (hn : ∀ n ∈ L, cleanName n = true)
    (hhf : headerFree (pyStrip (subItemsAll D.data)) = true)
    (hne : pyStrip (subItemsAll D.data) ≠ []) :
    parse_items_from_description (some (format_items_to_description L D)) = L := by
  cases L with
  | nil => exact absurd rfl hL
  | cons n0 L' =>
  cases hcl : pyStrip (subItemsAll D.data) with
  | nil => exact absurd hcl hne
  | cons d0 dt =>
  rw [hcl] at hhf
  have hfmt : format_items_to_description (n0 :: L') D
      = String.mk ((d0 :: dt) ++ '\n' :: '\n' :: itemsBlock (n0 :: L')) := by
    unfold format_items_to_description
    rw [hcl]
    rfl
  rw [hfmt]
  rw [show ((d0 :: dt) ++ '\n' :: '\n' :: itemsBlock (n0 :: L'))
    = d0 :: (dt ++ '\n' :: '\n' :: itemsBlock (n0 :: L')) from rfl]
  rw [parse_some_cons]
  have hS : ∀ S2, S2 <:+ (d0 :: dt) → S2 ≠ [] →
      sectionMatchAt (S2 ++ ('\n' :: '\n' :: itemsBlock (n0 :: L'))) = none := by
    intro S2 hsuf _
    apply sectionMatchAt_none_of_headerAt
    have hmem : S2 ∈ (d0 :: dt).tails := (List.mem_tails _ _).mpr hsuf
    have hnone : (headerAt (S2 ++ ['\n'])).isNone = true := by
      unfold headerFree at hhf
      rw [List.all_eq_true] at hhf
      exact hhf S2 hmem
    exact headerAt_nl_transport S2 ('\n' :: itemsBlock (n0 :: L'))
      (Option.isNone_iff_eq_none.mp hnone)
  have hbhead : (List.intercalate ['\n'] (List.map renderLine (n0 :: L'))).head?
      = some '-' := by
    cases L' with
    | nil =>
      rw [show List.map renderLine [n0] = [renderLine n0] from rfl, intercalate_single]
      rfl
    | cons n1 L'' =>
      rw [show List.map renderLine (n0 :: n1 :: L'')
        = renderLine n0 :: renderLine n1 :: List.map renderLine L'' from rfl]
      rw [intercalate_cons_cons]
      rfl
  have hblock : findNext (itemsBlock (n0 :: L'))
      = some ([], List.intercalate ['\n'] (List.map renderLine (n0 :: L'))) := by
    show findNext ('I' :: ('t' :: 'e' :: 'm' :: 's' :: ':' :: '\n' ::
      List.intercalate ['\n'] (List.map renderLine (n0 :: L')))) = _
    apply findNext_cons_some
    exact sectionMatchAt_items_block _ hbhead
  have hcf : ∀ ch ∈ List.intercalate ['\n'] (List.map renderLine (n0 :: L')),
      ch.toLower ≠ ':' := by
    intro ch hchb
    rcases intercalate_mem_chars ['\n'] _ ch hchb with hsep | ⟨l, hl, hchl⟩
    · have hch : ch = '\n' := by simpa using hsep
      rw [hch]
      decide
    · rw [List.mem_map] at hl
      obtain ⟨nm, hnm, hrl⟩ := hl
      rw [← hrl] at hchl
      simp only [renderLine, List.mem_cons] at hchl
      rcases hchl with rfl | rfl | hmm
      · decide
      · decide
      · exact ((cleanName_spec (hn nm hnm)).2.1 ch hmm).1
  have hsec : extractSections ((d0 :: dt) ++ ('\n' :: '\n' :: itemsBlock (n0 :: L')))
      = [List.intercalate ['\n'] (List.map renderLine (n0 :: L'))] := by
    unfold extractSections
    rw [findNext_append_none (d0 :: dt) _ hS]
    rw [findNext_cons_none (sectionMatchAt_none_of_headerAt (headerAt_nl _))]
    rw [findNext_cons_none (sectionMatchAt_none_of_headerAt (headerAt_nl _))]
    rw [hblock]
    show sectionsFromF (List.intercalate ['\n'] (List.map renderLine (n0 :: L'))).length
      (List.intercalate ['\n'] (List.map renderLine (n0 :: L'))) = _
    apply sectionsFromF_no_match
    · apply findNext_eq_none
      intro S hsuf hne2
      apply sectionMatchAt_none_of_headerAt
      apply headerAt_none_of_no_colon
      intro ch hch
      exact hcf ch (hsuf.subset hch)
    · apply upToGeneric_no_colon
      intro ch hch hcon
      exact hcf ch hch (by rw [hcon]; decide)
  rw [show parseItemsCore (d0 :: (dt ++ '\n' :: '\n' :: itemsBlock (n0 :: L')))
    = ((extractSections ((d0 :: dt) ++ ('\n' :: '\n' :: itemsBlock (n0 :: L')))).flatMap
        sectionItems).map (fun l => String.mk l) from rfl]
  rw [hsec]
  rw [show (([List.intercalate ['\n'] (List.map renderLine (n0 :: L'))] :
      List (List Char)).flatMap sectionItems)
    = sectionItems (List.intercalate ['\n'] (List.map renderLine (n0 :: L'))) from by simp]
  rw [sectionItems_bullets (n0 :: L') hn (by simp)]
  rw [List.map_map]
  have hcomp : ((fun l => String.mk l) ∘ String.data) = id := funext (fun nm => rfl)
  rw [hcomp, List.map_id]

theorem roundtrip_exact_witness :
    ((["a"] : List String) ≠ []
      ∧ (∀ n ∈ (["a"] : List String), cleanName n = true)
      ∧ headerFree (pyStrip (subItemsAll ("Hello world" : String).data)) = true
      ∧ pyStrip (subItemsAll ("Hello world" : String).data) ≠ [])
    ∧ parse_items_from_description
        (some (format_items_to_description ["a"] "Hello world")) = ["a"] :=
  ⟨⟨by decide, by decide, by decide, by decide⟩,
    roundtrip_exact ["a"] "Hello world" (by decide) (by decide) (by decide) (by decide)⟩

/-- C7 counterexample: a base description with a synonym header and no
"Items:" section does not round-trip: the synonym section survives render and
extraction returns its bullet first, so the extracted set is not the rendered
set. -/
theorem roundtrip_fails_on_synonym_header :
    parse_items_from_description
        (some (format_items_to_description ["a"] "Bring:\n- passport"))
      = ["passport", "a"]
    ∧ (["passport", "a"] : List String) ≠ ["a"] := by
  constructor
  · decide
  · decide

/-- C8 counterexample: the substitution pattern of render is removed at every
occurrence (re.sub replaces all matches), so a second canonical Items section
is stripped as well; the spec's prediction that it survives is false. -/
theorem format_strips_second_items_section :
    format_items_to_description [] "Items:\n- a\nKeep\nItems:\n- b" = "Keep"
      ∧ ("Keep" : String) ≠ "Keep\nItems:\n- b" := by
  constructor
  · decide
  · decide

/-- C8 amended: render strips EVERY canonical case-insensitive Items section
(header plus contiguous dash bullet lines), not only the first, while a
section under a synonym header (here Checklist) and interior plain lines are
left intact.  Stated for the family c8doc with a, b the bullet names of the
two Items sections and c the Checklist bullet name. -/
theorem format_strips_every_items_section (a b c : List Char)
    (ha : a ≠ []) (hb : b ≠ [])
    (haw : ∀ ch ∈ a, isWS ch = false) (hbw : ∀ ch ∈ b, isWS ch = false)
    (hc : ∀ ch ∈ c, ch.toLower ≠ ':') :
    format_items_to_description [] (String.mk (c8doc a b c))
      = String.mk (chkHdr ++ (c ++ '\n' :: ['K', 'e', 'e', 'p'])) := by
  have hrep2 : repMatch (keepMid ++ (itmHdr ++ b)) = none := rfl
  have hm1 : itemsMatchAt ('I' :: (['t', 'e', 'm', 's', ':', '\n', '-', ' '] ++
      (a ++ '\n' :: (keepMid ++ (itmHdr ++ b)))))
      = some (keepMid ++ (itmHdr ++ b)) :=
    itemsMatchAt_section a (keepMid ++ (itmHdr ++ b)) ha haw hrep2
  have h3 : ∀ f : Nat, subItemsAllF (f + 1)
      (itmHdr ++ (a ++ '\n' :: (keepMid ++ (itmHdr ++ b))))
      = subItemsAllF f (keepMid ++ (itmHdr ++ b)) := by
    intro f
    show subItemsAllF (f + 1) ('I' :: (['t', 'e', 'm', 's', ':', '\n', '-', ' '] ++
      (a ++ '\n' :: (keepMid ++ (itmHdr ++ b))))) = _
    exact subItemsAllF_cons_match hm1
  have hm2 : itemsMatchAt ('I' :: (['t', 'e', 'm', 's', ':', '\n', '-', ' '] ++ b))
      = some [] :=
    itemsMatchAt_section_end b hb hbw
  have h5 : ∀ f : Nat, subItemsAllF (f + 1) (itmHdr ++ b) = subItemsAllF f [] := by
    intro f
    show subItemsAllF (f + 1)
      ('I' :: (['t', 'e', 'm', 's', ':', '\n', '-', ' '] ++ b)) = _
    exact subItemsAllF_cons_match hm2
  have hchain : ∀ f : Nat, subItemsAllF
      (chkHdr.length + ((c.length + 1) + ((keepMid.length + (f + 1)) + 1)))
      (c8doc a b c)
      = chkHdr ++ (c ++ '\n' :: (keepMid ++ ([] : List Char))) := by
    intro f
    simp only [c8doc]
    rw [scanPre chkHdr _ _ (by decide)]
    rw [scanCleanName c _ _ hc]
    rw [h3 _]
    rw [scanPre keepMid _ _ (by decide)]
    rw [h5 _]
    rw [subItemsAllF_nil]
  show String.mk (pyStrip (subItemsAll (c8doc a b c))) = _
  refine congrArg String.mk ?_
  rw [show subItemsAll (c8doc a b c)
    = subItemsAllF (c8doc a b c).length (c8doc a b c) from rfl]
  rw [subItemsAllF_fuel_inv (c8doc a b c).length
    (chkHdr.length + ((c.length + 1) + ((keepMid.length + ((c8doc a b c).length + 1)) + 1)))
    (c8doc a b c) (Nat.le_refl _) (by omega)]
  rw [hchain ((c8doc a b c).length)]
  rw [List.append_nil]
  have hshape : chkHdr ++ (c ++ '\n' :: keepMid)
      = ('C' :: (['h', 'e', 'c', 'k', 'l', 'i', 's', 't', ':', '\n', '-', ' '] ++
          (c ++ '\n' :: ['K', 'e', 'e', 'p']))) ++ ['\n'] := by
    simp [chkHdr, keepMid, List.cons_append, List.append_assoc]
  rw [hshape]
  have hlast : ∀ ch2, (('C' :: (['h', 'e', 'c', 'k', 'l', 'i', 's', 't', ':', '\n', '-', ' '] ++
      (c ++ '\n' :: ['K', 'e', 'e', 'p'])))).getLast? = some ch2 → isWS ch2 = false := by
    intro ch2 hch
    have hsh : ('C' :: (['h', 'e', 'c', 'k', 'l', 'i', 's', 't', ':', '\n', '-', ' '] ++
        (c ++ '\n' :: ['K', 'e', 'e', 'p'])))
        = ('C' :: (['h', 'e', 'c', 'k', 'l', 'i', 's', 't', ':', '\n', '-', ' '] ++
            (c ++ ['\n', 'K', 'e', 'e']))) ++ ['p'] := by
      simp [List.cons_append, List.append_assoc]
    rw [hsh, List.getLast?_concat] at hch
    simp only [Option.some.injEq] at hch
    rw [← hch]
    decide
  rw [pyStrip_append_nl 'C' (['h', 'e', 'c', 'k', 'l', 'i', 's', 't', ':', '\n', '-', ' '] ++
    (c ++ '\n' :: ['K', 'e', 'e', 'p'])) (by decide) hlast]
  rfl

theorem format_strips_every_items_section_witness :
    ((['a'] : List Char) ≠ [] ∧ (['b'] : List Char) ≠ []
      ∧ (∀ ch ∈ (['a'] : List Char), isWS ch = false)
      ∧ (∀ ch ∈ (['b'] : List Char), isWS ch = false)
      ∧ (∀ ch ∈ (['c'] : List Char), ch.toLower ≠ ':'))
    ∧ format_items_to_description [] (String.mk (c8doc ['a'] ['b'] ['c']))
        = String.mk (chkHdr ++ (['c'] ++ '\n' :: ['K', 'e', 'e', 'p'])) :=
  ⟨⟨by decide, by decide, by decide, by decide, by decide⟩,
    format_strips_every_items_section ['a'] ['b'] ['c'] (by decide) (by decide)
      (by decide) (by decide) (by decide)⟩

end Sched
